import Mathlib

/-!
# dynarray.c: a growable array of untyped pointers

A shallow embedding of `src/dynarray.c`.

* A `void *` is a natural number, `NULL` being `0`; the container only stores
  and returns such values.
* `int` is a 32-bit two's complement integer: a value is an `Int`, and the
  arithmetic the code performs on `size` and `capacity` (`*= 2`, `++`, `--`)
  goes through `wrap32`.
* The block `items` points to is the list of its slots; `none` is a null
  `items` pointer. Every `items[i]` goes through `load` or `store`, which
  are undefined outside the block.
* The allocator is an input: each call that may allocate takes the
  allocator's answer, `none` for a null return and `some mem` for a block
  whose uninitialised slot `k` holds `mem k`. Pointers are 8 bytes, `size_t`
  is 64 bits, and no request above `PTRDIFF_MAX` bytes is served.
* What a call writes to `stderr` is returned next to its result.
* Where several containers share a program, the calls are given once more on
  a memory of structs and blocks by address (`DA_push_at`, `DA_pop_at`,
  `DA_set_at`), and shown to do there what they do on a container.
-/

namespace DynArray

/-! ## Data model -/

/-- A `void *` value; the container never looks through it. -/
abbrev Handle := Nat

/-- The null pointer. -/
def NULL : Handle := 0

/-- Line 5: `#define STARTING_CAPACITY 8`. -/
def STARTING_CAPACITY : Int := 8

/-- Largest value of a 32-bit `int`. -/
def INT_MAX : Int := 2147483647

/-- The value an `int` holds after an arithmetic result `x`: `x` reduced
modulo 2^32 into `[-2^31, 2^31)`. -/
def wrap32 (x : Int) : Int := (x + 2147483648) % 4294967296 - 2147483648

/-- Largest object size in bytes: the allocator serves no request above it. -/
def PTRDIFF_MAX : Int := 9223372036854775807

/-- The byte count `sizeof(void *) * capacity`: `capacity` is converted to a
64-bit `size_t` and multiplied by the pointer size 8 modulo 2^64. -/
def bytes (capacity : Int) : Int :=
  (capacity % 18446744073709551616) * 8 % 18446744073709551616

/-- Number of pointer slots in a block of `sizeof(void *) * capacity` bytes. -/
def slots (capacity : Int) : Nat := (bytes capacity / 8).toNat

/-- Lines 7-11: `struct DA`. -/
structure DA where
  /-- The block `items` points to, `none` for a null pointer. -/
  items : Option (List Handle)
  /-- Current number of elements. -/
  size : Int
  /-- Number of elements before resizing. -/
  capacity : Int

/-- How a call ends. -/
inductive Result (α : Type) where
  /-- The call returns. -/
  | ok (a : α) : Result α
  /-- The call ends the process with `exit(EXIT_FAILURE)` after writing
  `msg` to `stderr`. -/
  | exited (msg : String) : Result α
  /-- The call reads or writes outside the block `items` points to. -/
  | undefined : Result α

/-- What a returning call leaves behind. -/
structure Step (α : Type) where
  /-- The value returned. -/
  ret : α
  /-- The container after the call. -/
  da : DA
  /-- What the call wrote to `stderr`, if anything. -/
  diag : Option String

/-- Result of `malloc(sizeof(void *) * capacity)`: null when the request is
above `PTRDIFF_MAX` bytes or the allocator answers `none`, else a block of
uninitialised slots. -/
def malloc_items (answer : Option (Nat → Handle)) (capacity : Int) :
    Option (List Handle) :=
  if bytes capacity > PTRDIFF_MAX then none
  else answer.map (fun mem => (List.range (slots capacity)).map mem)

/-- Result of `realloc(items, sizeof(void *) * capacity)`: null when the
request is above `PTRDIFF_MAX` bytes or the allocator answers `none`, else a
block that keeps the old contents up to the smaller of the two sizes. -/
def realloc_items (answer : Option (Nat → Handle)) (items : Option (List Handle))
    (capacity : Int) : Option (List Handle) :=
  if bytes capacity > PTRDIFF_MAX then none
  else answer.map (fun mem =>
    (List.range (slots capacity)).map (fun k => (items.getD []).getD k (mem k)))

/-- The read `items[i]`. -/
def load (items : Option (List Handle)) (i : Int) : Result Handle :=
  match items with
  | none => Result.undefined
  | some buf =>
    if i < 0 then Result.undefined
    else match buf[i.toNat]? with
      | some v => Result.ok v
      | none => Result.undefined

/-- The write `items[i] = x`. -/
def store (items : Option (List Handle)) (i : Int) (x : Handle) :
    Result (Option (List Handle)) :=
  match items with
  | none => Result.undefined
  | some buf =>
    if i < 0 then Result.undefined
    else if i.toNat < buf.length then Result.ok (some (buf.set i.toNat x))
    else Result.undefined

/-! ## Operations -/

/-- Lines 14-32: `DA_new`. `arr` says whether `malloc(sizeof(DA))` succeeded,
`answer` is the allocator's answer for the block of items. -/
def DA_new (arr : Bool) (answer : Option (Nat → Handle)) : Result DA :=
  if arr = false then
    Result.exited "Failed to allocate memory for DynamicArray\n"
  else
    let size : Int := 0
    let capacity : Int := STARTING_CAPACITY
    match malloc_items answer capacity with
    | none => Result.exited "Failed to allocate memory for items\n"
    | some buf => Result.ok { items := some buf, size := size, capacity := capacity }

/-- Lines 34-37: `DA_size`. -/
def DA_size (da : DA) : Int := da.size

/-- Lines 41-44: the growth step of `DA_push`. -/
def DA_grow (answer : Option (Nat → Handle)) (da : DA) : DA :=
  if da.size = da.capacity then
    let capacity := wrap32 (da.capacity * 2)
    { da with capacity := capacity, items := realloc_items answer da.items capacity }
  else da

/-- Lines 39-46: `DA_push`. `answer` is the allocator's answer to the
`realloc`, consulted only when the container is full. -/
def DA_push (answer : Option (Nat → Handle)) (da : DA) (x : Handle) :
    Result (Step Unit) :=
  let da1 := DA_grow answer da
  match store da1.items da1.size x with
  | Result.ok items =>
    Result.ok { ret := (), da := { da1 with items := items, size := wrap32 (da1.size + 1) },
                diag := none }
  | Result.exited msg => Result.exited msg
  | Result.undefined => Result.undefined

/-- Lines 48-54: `DA_pop`. -/
def DA_pop (da : DA) : Result (Step Handle) :=
  if da.size = 0 then
    Result.ok { ret := NULL, da := da, diag := some "Cannot pop from empty array\n" }
  else
    let size := wrap32 (da.size - 1)
    match load da.items size with
    | Result.ok v => Result.ok { ret := v, da := { da with size := size }, diag := none }
    | Result.exited msg => Result.exited msg
    | Result.undefined => Result.undefined

/-- Lines 56-62: `DA_set`. -/
def DA_set (da : DA) (x : Handle) (i : Int) : Result (Step Unit) :=
  if i < 0 ∨ i ≥ da.size then
    Result.ok { ret := (), da := da,
                diag := some ("Index " ++ toString i ++ " out of bounds for setItem\n") }
  else
    match store da.items i x with
    | Result.ok items => Result.ok { ret := (), da := { da with items := items }, diag := none }
    | Result.exited msg => Result.exited msg
    | Result.undefined => Result.undefined

/-- Lines 64-70: `DA_get`. -/
def DA_get (da : DA) (i : Int) : Result (Step Handle) :=
  if i < 0 ∨ i ≥ da.size then
    Result.ok { ret := NULL, da := da,
                diag := some ("Index " ++ toString i ++ " out of bounds for getItem\n") }
  else
    match load da.items i with
    | Result.ok v => Result.ok { ret := v, da := da, diag := none }
    | Result.exited msg => Result.exited msg
    | Result.undefined => Result.undefined

/-! ## Well-formed containers -/

/-- A container as section 3 of the specification describes it:
`0 <= size <= capacity`, `capacity > 0`, both counters being `int` values,
and `items` pointing to a block of `capacity` slots. -/
def WellFormed (da : DA) : Prop :=
  0 ≤ da.size ∧ da.size ≤ da.capacity ∧ 0 < da.capacity ∧ da.capacity ≤ INT_MAX ∧
    da.items.map (fun buf => (buf.length : Int)) = some da.capacity

instance : DecidablePred WellFormed := fun da => by
  unfold WellFormed; infer_instance

/-- Slot `j` of the block, `none` outside the block. -/
def slot (da : DA) (j : Nat) : Option Handle :=
  match da.items with
  | none => none
  | some buf => buf[j]?

/-- The logical contents: slots `0 .. size-1` of the block. -/
def abs (da : DA) : List Handle := (da.items.getD []).take da.size.toNat

/-! ## The plain list the container is compared with -/

/-- The empty list, for a new container. -/
def spec_new : List Handle := []

/-- Appending `h` at the end. -/
def spec_push (l : List Handle) (h : Handle) : List Handle := l ++ [h]

/-- The last element and the list without it; nothing for the empty list. -/
def spec_pop (l : List Handle) : Option (Handle × List Handle) :=
  match l.getLast? with
  | none => none
  | some v => some (v, l.dropLast)

/-- The list with position `i` replaced by `h`. -/
def spec_set (l : List Handle) (h : Handle) (i : Nat) : List Handle := l.set i h

/-- The element at position `i`. -/
def spec_get (l : List Handle) (i : Nat) : Option Handle := l[i]?

/-- The length of the list. -/
def spec_size (l : List Handle) : Nat := l.length

/-! ## Sequences of calls -/

/-- One call of a sequence: a push of `x`, the allocator holding `mem` ready
for the block if the call reallocates, or a pop. -/
inductive Op where
  | push (x : Handle) (mem : Nat → Handle) : Op
  | pop : Op

/-- The container after one call. -/
def step (da : DA) : Op → Result DA
  | Op.push x mem =>
    match DA_push (some mem) da x with
    | Result.ok st => Result.ok st.da
    | Result.exited msg => Result.exited msg
    | Result.undefined => Result.undefined
  | Op.pop =>
    match DA_pop da with
    | Result.ok st => Result.ok st.da
    | Result.exited msg => Result.exited msg
    | Result.undefined => Result.undefined

/-- The container after a sequence of calls. -/
def run : DA → List Op → Result DA
  | da, [] => Result.ok da
  | da, op :: ops =>
    match step da op with
    | Result.ok da1 => run da1 ops
    | Result.exited msg => Result.exited msg
    | Result.undefined => Result.undefined

/-- The outcome of every call of a sequence, in order, up to the first call
that does not return. -/
def trace : DA → List Op → List (Result DA)
  | _, [] => []
  | da, op :: ops =>
    match step da op with
    | Result.ok da1 => Result.ok da1 :: trace da1 ops
    | Result.exited msg => [Result.exited msg]
    | Result.undefined => [Result.undefined]

/-- Number of pushes in a sequence. -/
def pushes : List Op → Nat
  | [] => 0
  | Op.push _ _ :: ops => pushes ops + 1
  | Op.pop :: ops => pushes ops

/-- Number of pops of a sequence made while `DA_size` is positive. -/
def successfulPops : DA → List Op → Nat
  | _, [] => 0
  | da, op :: ops =>
    match step da op with
    | Result.ok da1 =>
      (match op with
        | Op.pop => if DA_size da > 0 then 1 else 0
        | Op.push _ _ => 0) + successfulPops da1 ops
    | Result.exited _ => 0
    | Result.undefined => 0

/-- The element count a sequence of calls asks for after each call, starting
from `n` elements: a push adds one, a pop removes one unless there is none. -/
def counts : Int → List Op → List Int
  | _, [] => []
  | n, Op.push _ _ :: ops => (n + 1) :: counts (n + 1) ops
  | n, Op.pop :: ops => (if n > 0 then n - 1 else n) :: counts (if n > 0 then n - 1 else n) ops

/-- The largest element count a sequence of calls asks for, `m` being the
largest so far and `n` the present count. -/
def peak : Int → Int → List Op → Int
  | m, _, [] => m
  | m, n, Op.push _ _ :: ops => peak (max m (n + 1)) (n + 1) ops
  | m, n, Op.pop :: ops => peak m (if n > 0 then n - 1 else n) ops

/-- Number of calls of a sequence that run the growth step of `DA_push`
(lines 41-44) and return. -/
def growths : DA → List Op → Nat
  | _, [] => 0
  | da, op :: ops =>
    match step da op with
    | Result.ok da1 =>
      (match op with
        | Op.push _ _ => if da.size = da.capacity then 1 else 0
        | Op.pop => 0) + growths da1 ops
    | Result.exited _ => 0
    | Result.undefined => 0

/-- Number of slots the growth steps of a sequence of calls carry over to a
new block: the old capacity at each growth. -/
def carried : DA → List Op → Int
  | _, [] => 0
  | da, op :: ops =>
    match step da op with
    | Result.ok da1 =>
      (match op with
        | Op.push _ _ => if da.size = da.capacity then da.capacity else 0
        | Op.pop => 0) + carried da1 ops
    | Result.exited _ => 0
    | Result.undefined => 0

/-- The number `log2(n/8)` rounded up, 0 when `n <= 8`: the least `k` with
`n <= 8 * 2^k`. -/
def doublingsNeeded (n : Nat) : Nat := Nat.clog 2 ((n + 7) / 8)

/-- The capacity is the least value `8 * 2^k` that is at least `m`, and `m`
is at least the size. -/
def Tight (da : DA) (m : Int) : Prop :=
  (∃ k : Nat, da.capacity = 8 * 2 ^ k) ∧ da.size ≤ m ∧ m ≤ da.capacity ∧
    (da.capacity = 8 ∨ da.capacity < 2 * m)

/-- The calls pushing, one at a time and in order, the handles listed in `ps`,
each listed with the block contents the allocator holds ready for it. -/
def pushAll (ps : List (Handle × (Nat → Handle))) : List Op :=
  ps.map (fun p => Op.push p.1 p.2)

/-! ## Several containers in one program -/

/-- A call that may change its container: a push of `x`, the allocator
holding `mem` ready for the block if the call reallocates, a pop, or a set of
index `i` to `x`. -/
inductive Call where
  | push (x : Handle) (mem : Nat → Handle) : Call
  | pop : Call
  | set (x : Handle) (i : Int) : Call

/-- The container after a call. -/
def call (da : DA) : Call → Result DA
  | Call.push x mem =>
    match DA_push (some mem) da x with
    | Result.ok st => Result.ok st.da
    | Result.exited msg => Result.exited msg
    | Result.undefined => Result.undefined
  | Call.pop =>
    match DA_pop da with
    | Result.ok st => Result.ok st.da
    | Result.exited msg => Result.exited msg
    | Result.undefined => Result.undefined
  | Call.set x i =>
    match DA_set da x i with
    | Result.ok st => Result.ok st.da
    | Result.exited msg => Result.exited msg
    | Result.undefined => Result.undefined

/-- The container has room for the call: a push needs a container that is
not full or whose capacity is below 2^30. -/
def roomFor (da : DA) : Call → Prop
  | Call.push _ _ => da.size < da.capacity ∨ da.capacity ≤ 1073741823
  | Call.pop => True
  | Call.set _ _ => True

instance (da : DA) (c : Call) : Decidable (roomFor da c) := by
  cases c <;> unfold roomFor <;> infer_instance

/-! ## Containers in the memory of a program -/

/-- A `struct DA` as it lies in memory (lines 7-11): `items` is the address of
the block, `none` for a null pointer. -/
structure Cell where
  items : Option Nat
  size : Int
  capacity : Int

/-- The memory of a program: the `struct DA` at each address and the block of
slots at each address, `none` where there is none. A `DA *` is an address of
the first kind, a `void **` one of the second. -/
structure Memory where
  das : Nat → Option Cell
  blocks : Nat → Option (List Handle)

/-- What a returning call on a `DA *` leaves behind. -/
structure StepAt (α : Type) where
  /-- The value returned. -/
  ret : α
  /-- The memory after the call. -/
  mem : Memory
  /-- What the call wrote to `stderr`, if anything. -/
  diag : Option String

/-- Result of `realloc(items, sizeof(void *) * capacity)` in memory: the
pointer returned and the blocks after the call. The allocator answers `none`
for a null return, or the address of the new block with the contents of its
uninitialised slots; the new block keeps the old contents and the old block
is freed. -/
def realloc_at (answer : Option (Nat × (Nat → Handle)))
    (blocks : Nat → Option (List Handle)) (items : Option Nat) (capacity : Int) :
    Option Nat × (Nat → Option (List Handle)) :=
  if bytes capacity > PTRDIFF_MAX then (none, blocks)
  else match answer with
    | none => (none, blocks)
    | some (a, mem) =>
      (some a, fun b =>
        if b = a then
          some ((List.range (slots capacity)).map
            (fun k => ((items.bind blocks).getD []).getD k (mem k)))
        else if items = some b then none
        else blocks b)

/-- Lines 41-44 on a `struct DA` in memory: the struct and the blocks after
the growth step. -/
def DA_grow_at (answer : Option (Nat × (Nat → Handle)))
    (blocks : Nat → Option (List Handle)) (s : Cell) :
    Cell × (Nat → Option (List Handle)) :=
  if s.size = s.capacity then
    let capacity := wrap32 (s.capacity * 2)
    let r := realloc_at answer blocks s.items capacity
    ({ s with capacity := capacity, items := r.1 }, r.2)
  else (s, blocks)

/-- Lines 39-46: `DA_push` on the `DA *` `da`. -/
def DA_push_at (answer : Option (Nat × (Nat → Handle))) (m : Memory) (da : Nat)
    (x : Handle) : Result (StepAt Unit) :=
  match m.das da with
  | none => Result.undefined
  | some s =>
    let g := DA_grow_at answer m.blocks s
    match store (g.1.items.bind g.2) g.1.size x with
    | Result.ok buf =>
      Result.ok
        { ret := (),
          mem :=
            { das := fun p =>
                if p = da then some { g.1 with size := wrap32 (g.1.size + 1) } else m.das p,
              blocks := fun b => if g.1.items = some b then buf else g.2 b },
          diag := none }
    | Result.exited msg => Result.exited msg
    | Result.undefined => Result.undefined

/-- Lines 48-54: `DA_pop` on the `DA *` `da`. -/
def DA_pop_at (m : Memory) (da : Nat) : Result (StepAt Handle) :=
  match m.das da with
  | none => Result.undefined
  | some s =>
    if s.size = 0 then
      Result.ok { ret := NULL, mem := m, diag := some "Cannot pop from empty array\n" }
    else
      let size := wrap32 (s.size - 1)
      match load (s.items.bind m.blocks) size with
      | Result.ok v =>
        Result.ok
          { ret := v,
            mem := { m with das := fun p => if p = da then some { s with size := size }
                                            else m.das p },
            diag := none }
      | Result.exited msg => Result.exited msg
      | Result.undefined => Result.undefined

/-- Lines 56-62: `DA_set` on the `DA *` `da`. -/
def DA_set_at (m : Memory) (da : Nat) (x : Handle) (i : Int) : Result (StepAt Unit) :=
  match m.das da with
  | none => Result.undefined
  | some s =>
    if i < 0 ∨ i ≥ s.size then
      Result.ok { ret := (), mem := m,
                  diag := some ("Index " ++ toString i ++ " out of bounds for setItem\n") }
    else
      match store (s.items.bind m.blocks) i x with
      | Result.ok buf =>
        Result.ok
          { ret := (),
            mem := { m with blocks := fun b => if s.items = some b then buf else m.blocks b },
            diag := none }
      | Result.exited msg => Result.exited msg
      | Result.undefined => Result.undefined

/-- The container a `struct DA` in memory stands for: the struct with its
block in place of the address. -/
def cellView (blocks : Nat → Option (List Handle)) (s : Cell) : DA :=
  { items := s.items.bind blocks, size := s.size, capacity := s.capacity }

/-- The container at the `DA *` `da`. -/
def view (m : Memory) (da : Nat) : Option DA := (m.das da).map (cellView m.blocks)

/-- The memory after a call on the `DA *` `da`, the allocator holding the
block at address `a` ready if the call reallocates. -/
def call_at (m : Memory) (da : Nat) (a : Nat) : Call → Result Memory
  | Call.push x mem =>
    match DA_push_at (some (a, mem)) m da x with
    | Result.ok st => Result.ok st.mem
    | Result.exited msg => Result.exited msg
    | Result.undefined => Result.undefined
  | Call.pop =>
    match DA_pop_at m da with
    | Result.ok st => Result.ok st.mem
    | Result.exited msg => Result.exited msg
    | Result.undefined => Result.undefined
  | Call.set x i =>
    match DA_set_at m da x i with
    | Result.ok st => Result.ok st.mem
    | Result.exited msg => Result.exited msg
    | Result.undefined => Result.undefined

/-- The memory after a sequence of pushes and pops on the `DA *` `da`, each
listed with the address the allocator holds ready for it. -/
def run_at (m : Memory) (da : Nat) : List (Op × Nat) → Result Memory
  | [] => Result.ok m
  | (Op.push x mem, a) :: ops =>
    match DA_push_at (some (a, mem)) m da x with
    | Result.ok st => run_at st.mem da ops
    | Result.exited msg => Result.exited msg
    | Result.undefined => Result.undefined
  | (Op.pop, _) :: ops =>
    match DA_pop_at m da with
    | Result.ok st => run_at st.mem da ops
    | Result.exited msg => Result.exited msg
    | Result.undefined => Result.undefined

/-- The states a program reaches from `DA_new` by calls of `DA_push`,
`DA_pop`, `DA_set` and `DA_get` that return. -/
inductive Reachable : DA → Prop where
  | new (arr : Bool) (answer : Option (Nat → Handle)) (da : DA) :
      DA_new arr answer = Result.ok da → Reachable da
  | push (da : DA) (answer : Option (Nat → Handle)) (x : Handle) (st : Step Unit) :
      Reachable da → DA_push answer da x = Result.ok st → Reachable st.da
  | pop (da : DA) (st : Step Handle) :
      Reachable da → DA_pop da = Result.ok st → Reachable st.da
  | set (da : DA) (x : Handle) (i : Int) (st : Step Unit) :
      Reachable da → DA_set da x i = Result.ok st → Reachable st.da
  | get (da : DA) (i : Int) (st : Step Handle) :
      Reachable da → DA_get da i = Result.ok st → Reachable st.da

/-- The capacity is 8 doubled some number of times, and was not doubled before
the container was full: what pushes alone make of the capacity of a new
container. -/
def Doubled (da : DA) : Prop :=
  (∃ k : Nat, da.capacity = 8 * 2 ^ k) ∧ (da.capacity = 8 ∨ da.capacity < 2 * da.size)

/-- A full container of 2^30 slots, every slot holding the handle 3. -/
def brimful : DA :=
  { items := some (List.replicate 1073741824 3), size := 1073741824, capacity := 1073741824 }

/-- A short sequence of calls: two pushes, three pops (the third on an empty
container), one push. -/
def demo : List Op :=
  [Op.push 1 (fun _ => 0), Op.push 2 (fun _ => 0), Op.pop, Op.pop, Op.pop,
   Op.push 3 (fun _ => 0)]

/-- Nine handles 100 .. 108, one more than the starting capacity. -/
def nine : List (Handle × (Nat → Handle)) :=
  (List.range 9).map (fun k => (100 + k, fun _ => 0))

/-- A memory holding two containers: `full8` at the `DA *` 1 with its block
at address 10, and `sample` at the `DA *` 2 with its block at address 20. -/
def duo : Memory :=
  { das := fun p =>
      if p = 1 then some { items := some 10, size := 8, capacity := 8 }
      else if p = 2 then some { items := some 20, size := 2, capacity := 4 }
      else none,
    blocks := fun b =>
      if b = 10 then some [1, 2, 3, 4, 5, 6, 7, 8]
      else if b = 20 then some [11, 12, 13, 14]
      else none }

/-- A memory holding two containers: `brimful` at the `DA *` 1 with its block
at address 10, and `sample` at the `DA *` 2 with its block at address 20. -/
def crowded : Memory :=
  { das := fun p =>
      if p = 1 then some { items := some 10, size := 1073741824, capacity := 1073741824 }
      else if p = 2 then some { items := some 20, size := 2, capacity := 4 }
      else none,
    blocks := fun b =>
      if b = 10 then some (List.replicate 1073741824 3)
      else if b = 20 then some [11, 12, 13, 14]
      else none }

/-- A new container whose block the allocator left zeroed. -/
def fresh : DA :=
  { items := some [0, 0, 0, 0, 0, 0, 0, 0], size := 0, capacity := 8 }

/-- The state of `fresh` after `DA_push` of the handle 5. -/
def one : DA :=
  { items := some [5, 0, 0, 0, 0, 0, 0, 0], size := 1, capacity := 8 }

/-- A full container at the starting capacity, as eight pushes leave a new
one. -/
def full8 : DA :=
  { items := some [1, 2, 3, 4, 5, 6, 7, 8], size := 8, capacity := 8 }

/-- A container of 2^30 slots with one slot left. -/
def nearly : DA :=
  { items := some (List.replicate 1073741824 3), size := 1073741823, capacity := 1073741824 }

/-- A well-formed container holding the handles 11 and 12 in a block of four
slots. -/
def sample : DA := { items := some [11, 12, 13, 14], size := 2, capacity := 4 }

/-! ## Basic facts about the memory model -/

theorem wrap32_of_int {x : Int} (h1 : -2147483648 ≤ x) (h2 : x ≤ 2147483647) :
    wrap32 x = x := by
  unfold wrap32; omega

theorem bytes_of_int {c : Int} (h1 : 0 ≤ c) (h2 : c ≤ INT_MAX) : bytes c = 8 * c := by
  unfold INT_MAX at h2; unfold bytes; omega

theorem slots_of_int {c : Int} (h1 : 0 ≤ c) (h2 : c ≤ INT_MAX) : slots c = c.toNat := by
  unfold slots; rw [bytes_of_int h1 h2]; omega

theorem WellFormed.block {da : DA} (h : WellFormed da) :
    ∃ buf, da.items = some buf ∧ (buf.length : Int) = da.capacity := by
  obtain ⟨_, _, _, _, h5⟩ := h
  cases hi : da.items with
  | none => simp [hi] at h5
  | some buf => exact ⟨buf, rfl, by simpa [hi] using h5⟩

theorem load_block (buf : List Handle) (i : Int) (h0 : 0 ≤ i) (h1 : i.toNat < buf.length) :
    load (some buf) i = Result.ok (buf.get ⟨i.toNat, h1⟩) := by
  have h : ¬ i < 0 := by omega
  simp [load, h, List.getElem?_eq_getElem h1]

theorem store_block (buf : List Handle) (i : Int) (x : Handle) (h0 : 0 ≤ i)
    (h1 : i.toNat < buf.length) :
    store (some buf) i x = Result.ok (some (buf.set i.toNat x)) := by
  have h : ¬ i < 0 := by omega
  simp [store, h, h1]

/-! ## The growth step and `DA_push` -/

theorem range_map_getElem? (n j : Nat) (f : Nat → Handle) (h : j < n) :
    ((List.range n).map f)[j]? = some (f j) := by
  simp [List.getElem?_map, List.getElem?_range h]

theorem grow_of_not_full (answer : Option (Nat → Handle)) (da : DA)
    (h : da.size ≠ da.capacity) : DA_grow answer da = da := by
  simp [DA_grow, h]

theorem grow_of_full (mem : Nat → Handle) (da : DA) (buf : List Handle)
    (hbuf : da.items = some buf) (hfull : da.size = da.capacity) (hc0 : 0 ≤ da.capacity)
    (hcap : da.capacity ≤ 1073741823) :
    DA_grow (some mem) da =
      { items := some ((List.range (da.capacity * 2).toNat).map (fun k => buf.getD k (mem k))),
        size := da.size, capacity := da.capacity * 2 } := by
  have hw2 : wrap32 (da.capacity * 2) = da.capacity * 2 := wrap32_of_int (by omega) (by omega)
  have hb : ¬ bytes (da.capacity * 2) > PTRDIFF_MAX := by
    rw [bytes_of_int (by omega) (by unfold INT_MAX; omega)]; unfold PTRDIFF_MAX; omega
  have hs : slots (da.capacity * 2) = (da.capacity * 2).toNat :=
    slots_of_int (by omega) (by unfold INT_MAX; omega)
  simp [DA_grow, hfull, hw2, realloc_items, hb, hs, hbuf]

theorem push_of_store (answer : Option (Nat → Handle)) (da da1 : DA) (x : Handle)
    (items : Option (List Handle)) (hg : DA_grow answer da = da1)
    (h : store da1.items da1.size x = Result.ok items) :
    DA_push answer da x = Result.ok
      { ret := (),
        da := { items := items, size := wrap32 (da1.size + 1), capacity := da1.capacity },
        diag := none } := by
  subst hg
  simp only [DA_push, h]

theorem push_spec (da : DA) (h : Handle) (mem : Nat → Handle) (hwf : WellFormed da)
    (hfit : da.size < da.capacity ∨ da.capacity ≤ 1073741823) :
    ∃ da2, DA_push (some mem) da h = Result.ok { ret := (), da := da2, diag := none } ∧
      da2.size = da.size + 1 ∧
      da2.capacity = (if da.size = da.capacity then 2 * da.capacity else da.capacity) ∧
      WellFormed da2 ∧
      (∀ j : Nat, (j : Int) < da.size → slot da2 j = slot da j) ∧
      slot da2 da.size.toNat = some h := by
  obtain ⟨buf, hbuf, hlen⟩ := hwf.block
  obtain ⟨h0, hsc, hc0, hcm, _⟩ := hwf
  unfold INT_MAX at hcm
  have hw1 : wrap32 (da.size + 1) = da.size + 1 := wrap32_of_int (by omega) (by omega)
  by_cases hfull : da.size = da.capacity
  · have hcap : da.capacity ≤ 1073741823 := by omega
    have hg := grow_of_full mem da buf hbuf hfull (by omega) hcap
    have hlt : da.size.toNat <
        ((List.range (da.capacity * 2).toNat).map (fun k => buf.getD k (mem k))).length := by
      simp; omega
    refine ⟨_, push_of_store _ _ _ _ _ hg (store_block _ da.size h h0 hlt), ?_, ?_, ?_, ?_, ?_⟩
    · exact hw1
    · rw [if_pos hfull]; simp only; omega
    · refine ⟨by simp only; omega, by simp only; omega, by simp only; omega,
        by unfold INT_MAX; simp only; omega, ?_⟩
      simp; omega
    · intro j hj
      have hj1 : j < buf.length := by omega
      have hj2 : j < (da.capacity * 2).toNat := by omega
      have hj3 : da.size.toNat ≠ j := by omega
      simp only [slot, hbuf, List.getElem?_set_ne hj3, range_map_getElem? _ _ _ hj2,
        List.getD_eq_getElem _ _ hj1, List.getElem?_eq_getElem hj1]
    · simp only [slot, List.getElem?_set_self hlt]
  · have hg := grow_of_not_full (some mem) da hfull
    have hlt : da.size.toNat < buf.length := by omega
    have hst := store_block _ da.size h h0 hlt
    rw [← hbuf] at hst
    refine ⟨_, push_of_store _ _ _ _ _ hg hst, ?_, ?_, ?_, ?_, ?_⟩
    · exact hw1
    · rw [if_neg hfull]
    · refine ⟨by simp only; omega, by simp only; omega, by simp only; omega,
        by unfold INT_MAX; simp only; omega, ?_⟩
      simp; omega
    · intro j hj
      have hj3 : da.size.toNat ≠ j := by omega
      simp only [slot, hbuf, List.getElem?_set_ne hj3]
    · simp only [slot, List.getElem?_set_self hlt]

theorem push_overflow (answer : Option (Nat → Handle)) (da : DA) (x : Handle)
    (hfull : da.size = da.capacity) (hcap : 1073741824 ≤ da.capacity)
    (hmax : da.capacity ≤ INT_MAX) : DA_push answer da x = Result.undefined := by
  unfold INT_MAX at hmax
  have hb : bytes (wrap32 (da.capacity * 2)) > PTRDIFF_MAX := by
    unfold bytes wrap32 PTRDIFF_MAX; omega
  simp [DA_push, DA_grow, hfull, realloc_items, hb, store]

theorem block_wellFormed (buf : List Handle) (n c : Int) (h0 : 0 ≤ n) (h1 : n ≤ c)
    (h2 : 0 < c) (h3 : c ≤ 2147483647) (h4 : (buf.length : Int) = c) :
    WellFormed { items := some buf, size := n, capacity := c } :=
  ⟨h0, h1, h2, h3, by rw [Option.map_some', h4]⟩

theorem brimful_wellFormed : WellFormed brimful :=
  block_wellFormed _ _ _ (by decide) (by decide) (by decide) (by decide)
    (by rw [List.length_replicate]; rfl)

theorem nearly_wellFormed : WellFormed nearly :=
  block_wellFormed _ _ _ (by decide) (by decide) (by decide) (by decide)
    (by rw [List.length_replicate]; rfl)

/-! ## Reading and removing the last element -/

theorem get_spec (da : DA) (i : Int) (hwf : WellFormed da) (hi0 : 0 ≤ i) (hi1 : i < da.size) :
    ∃ v, slot da i.toNat = some v ∧
      DA_get da i = Result.ok { ret := v, da := da, diag := none } := by
  obtain ⟨buf, hbuf, hlen⟩ := hwf.block
  obtain ⟨_, hsc, _, _, _⟩ := hwf
  have hlt : i.toNat < buf.length := by omega
  have hb : ¬ (i < 0 ∨ i ≥ da.size) := by omega
  refine ⟨buf.get ⟨i.toNat, hlt⟩, ?_, ?_⟩
  · simp [slot, hbuf, List.getElem?_eq_getElem hlt]
  · simp only [DA_get, if_neg hb, hbuf, load_block buf i hi0 hlt]

theorem pop_spec (da : DA) (hwf : WellFormed da) (hpos : 0 < da.size) :
    ∃ v, slot da (da.size - 1).toNat = some v ∧
      DA_pop da = Result.ok
        { ret := v, da := { items := da.items, size := da.size - 1, capacity := da.capacity },
          diag := none } := by
  obtain ⟨buf, hbuf, hlen⟩ := hwf.block
  obtain ⟨_, hsc, _, hcm, _⟩ := hwf
  unfold INT_MAX at hcm
  have hlt : (da.size - 1).toNat < buf.length := by omega
  have hz : da.size ≠ 0 := by omega
  have hw : wrap32 (da.size - 1) = da.size - 1 := wrap32_of_int (by omega) (by omega)
  refine ⟨buf.get ⟨(da.size - 1).toNat, hlt⟩, ?_, ?_⟩
  · simp [slot, hbuf, List.getElem?_eq_getElem hlt]
  · simp only [DA_pop, if_neg hz, hw, hbuf, load_block buf _ (by omega) hlt]

theorem pop_wellFormed (da : DA) (hwf : WellFormed da) (hpos : 0 < da.size) :
    WellFormed { items := da.items, size := da.size - 1, capacity := da.capacity } := by
  obtain ⟨h0, hsc, hc0, hcm, hb⟩ := hwf
  exact ⟨by simp only; omega, by simp only; omega, hc0, hcm, hb⟩

/-! ## Running a sequence of calls -/

theorem new_spec (mem : Nat → Handle) :
    DA_new true (some mem) =
      Result.ok { items := some ((List.range 8).map mem), size := 0, capacity := 8 } := by
  have hb : ¬ bytes 8 > PTRDIFF_MAX := by
    rw [bytes_of_int (by decide) (by decide)]; decide
  have hs : slots 8 = 8 := by rw [slots_of_int (by decide) (by decide)]; rfl
  simp [DA_new, malloc_items, STARTING_CAPACITY, hb, hs]

theorem new_wellFormed (mem : Nat → Handle) :
    WellFormed { items := some ((List.range 8).map mem), size := 0, capacity := 8 } :=
  block_wellFormed _ _ _ (by decide) (by decide) (by decide) (by decide) (by simp)

theorem step_push (da da2 : DA) (x : Handle) (mem : Nat → Handle)
    (h : DA_push (some mem) da x = Result.ok { ret := (), da := da2, diag := none }) :
    step da (Op.push x mem) = Result.ok da2 := by
  simp only [step, h]

theorem step_pop (da da2 : DA) (v : Handle) (d : Option String)
    (h : DA_pop da = Result.ok { ret := v, da := da2, diag := d }) :
    step da Op.pop = Result.ok da2 := by
  simp only [step, h]

theorem run_append (ops1 ops2 : List Op) : ∀ da da1, run da ops1 = Result.ok da1 →
    run da (ops1 ++ ops2) = run da1 ops2 := by
  induction ops1 with
  | nil => intro da da1 h; simp only [run, Result.ok.injEq] at h; rw [h]; rfl
  | cons op ops ih =>
    intro da da1 h
    simp only [run, List.cons_append] at h ⊢
    cases hs : step da op with
    | ok d => rw [hs] at h; simp only at h ⊢; exact ih d da1 h
    | exited msg => rw [hs] at h; simp at h
    | undefined => rw [hs] at h; simp at h

theorem run_bounded (ops : List Op) : ∀ da, WellFormed da →
    (∀ n ∈ counts da.size ops, n ≤ 1073741824) →
    ∃ da2, run da ops = Result.ok da2 ∧ WellFormed da2 ∧
      da2.size = da.size + pushes ops - successfulPops da ops ∧
      ∀ r ∈ trace da ops, ∃ s, r = Result.ok s ∧ WellFormed s := by
  induction ops with
  | nil => intro da hwf _; exact ⟨da, rfl, hwf, by simp [pushes, successfulPops], by simp [trace]⟩
  | cons op ops ih =>
    intro da hwf hb
    have hwf0 := hwf
    obtain ⟨hs0, hsc, hc0, hcm, _⟩ := hwf0
    cases op with
    | push x mem =>
      simp only [counts, List.mem_cons, forall_eq_or_imp] at hb
      obtain ⟨da1, hp, hsz, _, hwf1, _, _⟩ := push_spec da x mem hwf (by omega)
      have hst := step_push da da1 x mem hp
      obtain ⟨da2, hrun, hwf2, hsz2, htr⟩ := ih da1 hwf1 (by rw [hsz]; exact hb.2)
      refine ⟨da2, by simp only [run, hst]; exact hrun, hwf2, ?_, ?_⟩
      · simp only [pushes, successfulPops, hst]; push_cast; omega
      · intro r hr
        simp only [trace, hst, List.mem_cons] at hr
        rcases hr with hr | hr
        · exact ⟨da1, hr, hwf1⟩
        · exact htr r hr
    | pop =>
      simp only [counts, List.mem_cons, forall_eq_or_imp] at hb
      by_cases hz : da.size = 0
      · have hp : DA_pop da = Result.ok
            { ret := NULL, da := da, diag := some "Cannot pop from empty array\n" } := by
          simp [DA_pop, hz]
        have hst := step_pop da da _ _ hp
        have hnp : ¬ da.size > 0 := by omega
        rw [if_neg hnp] at hb
        obtain ⟨da2, hrun, hwf2, hsz2, htr⟩ := ih da hwf hb.2
        refine ⟨da2, by simp only [run, hst]; exact hrun, hwf2, ?_, ?_⟩
        · simp only [pushes, successfulPops, hst, DA_size, if_neg hnp]; omega
        · intro r hr
          simp only [trace, hst, List.mem_cons] at hr
          rcases hr with hr | hr
          · exact ⟨da, hr, hwf⟩
          · exact htr r hr
      · have hpos : da.size > 0 := by omega
        obtain ⟨v, _, hp⟩ := pop_spec da hwf hpos
        have hst := step_pop da _ _ _ hp
        have hwf1 := pop_wellFormed da hwf hpos
        rw [if_pos hpos] at hb
        obtain ⟨da2, hrun, hwf2, hsz2, htr⟩ := ih _ hwf1 hb.2
        refine ⟨da2, by simp only [run, hst]; exact hrun, hwf2, ?_, ?_⟩
        · simp only [pushes, successfulPops, hst, DA_size, if_pos hpos]
          simp only at hsz2
          push_cast; omega
        · intro r hr
          simp only [trace, hst, List.mem_cons] at hr
          rcases hr with hr | hr
          · exact ⟨_, hr, hwf1⟩
          · exact htr r hr

/-! ## The logical contents -/

theorem abs_getElem? (da : DA) (j : Nat) :
    (abs da)[j]? = if (j : Int) < da.size then slot da j else none := by
  unfold abs slot
  rw [List.getElem?_take]
  by_cases hj : (j : Int) < da.size
  · have hj2 : j < da.size.toNat := by omega
    rw [if_pos hj, if_pos hj2]
    cases da.items <;> simp
  · have hj2 : ¬ j < da.size.toNat := by omega
    rw [if_neg hj, if_neg hj2]

theorem abs_length (da : DA) (hwf : WellFormed da) : (abs da).length = da.size.toNat := by
  obtain ⟨buf, hbuf, hlen⟩ := hwf.block
  obtain ⟨_, hsc, _, _, _⟩ := hwf
  simp only [abs, hbuf, Option.getD_some, List.length_take]
  omega

theorem abs_push (da da2 : DA) (h : Handle) (hwf : WellFormed da)
    (hsize : da2.size = da.size + 1)
    (hkeep : ∀ j : Nat, (j : Int) < da.size → slot da2 j = slot da j)
    (hnew : slot da2 da.size.toNat = some h) : abs da2 = abs da ++ [h] := by
  have hlen := abs_length da hwf
  have hs0 := hwf.1
  apply List.ext_getElem?
  intro j
  rw [abs_getElem?, List.getElem?_append, abs_getElem?, hlen, hsize]
  by_cases hj : (j : Int) < da.size
  · have hj2 : j < da.size.toNat := by omega
    rw [if_pos (by omega), if_pos hj2, if_pos hj, hkeep j hj]
  · have hj2 : ¬ j < da.size.toNat := by omega
    rw [if_neg hj2]
    by_cases hj3 : (j : Int) = da.size
    · have hj4 : j = da.size.toNat := by omega
      rw [if_pos (by omega), hj4, hnew]; simp
    · have hj5 : j - da.size.toNat = (j - da.size.toNat - 1) + 1 := by omega
      rw [if_neg (by omega), hj5]; rfl

theorem get_of_abs (da : DA) (hwf : WellFormed da) (i : Nat) (v : Handle)
    (h : (abs da)[i]? = some v) :
    DA_get da (i : Int) = Result.ok { ret := v, da := da, diag := none } := by
  rw [abs_getElem?] at h
  by_cases hi : (i : Int) < da.size
  · rw [if_pos hi] at h
    obtain ⟨w, hw, hget⟩ := get_spec da i hwf (by omega) hi
    have e : (i : Int).toNat = i := by omega
    rw [e, h] at hw
    rw [hget, Option.some.inj hw]
  · rw [if_neg hi] at h; exact absurd h (by simp)

/-! ## Pushes alone -/

theorem doubled_push (da da2 : DA) (hwf : WellFormed da) (hd : Doubled da)
    (hsize : da2.size = da.size + 1)
    (hcap : da2.capacity = if da.size = da.capacity then 2 * da.capacity else da.capacity) :
    Doubled da2 := by
  obtain ⟨⟨k, hk⟩, hmin⟩ := hd
  obtain ⟨hs0, hsc, hc0, _, _⟩ := hwf
  by_cases hfull : da.size = da.capacity
  · rw [if_pos hfull] at hcap
    refine ⟨⟨k + 1, ?_⟩, Or.inr (by omega)⟩
    rw [hcap, hk, pow_succ]; ring
  · rw [if_neg hfull] at hcap
    exact ⟨⟨k, by rw [hcap, hk]⟩, by omega⟩

theorem doubled_at_limit (da : DA) (hwf : WellFormed da) (hd : Doubled da)
    (hsize : da.size = 1073741824) : da.capacity = 1073741824 := by
  obtain ⟨⟨k, hk⟩, hmin⟩ := hd
  obtain ⟨hs0, hsc, hc0, _, _⟩ := hwf
  have hlo : k ≤ 26 → (2 : Int) ^ k ≤ 67108864 := fun h =>
    le_trans (pow_le_pow_right₀ (by decide) h) (by norm_num)
  have hhi : 28 ≤ k → (268435456 : Int) ≤ 2 ^ k := fun h =>
    le_trans (by norm_num) (pow_le_pow_right₀ (by decide) h)
  have h27 : k = 27 := by
    by_contra hne
    rcases Nat.lt_or_ge k 27 with h | h
    · have := hlo (by omega); omega
    · have := hhi (by omega); omega
  rw [hk, h27]; norm_num

theorem run_pushAll (ps : List (Handle × (Nat → Handle))) : ∀ da, WellFormed da →
    Doubled da → da.size + ps.length ≤ 1073741824 →
    ∃ da2, run da (pushAll ps) = Result.ok da2 ∧ WellFormed da2 ∧ Doubled da2 ∧
      da2.size = da.size + ps.length ∧ abs da2 = abs da ++ ps.map Prod.fst := by
  induction ps with
  | nil => intro da hwf hd _; exact ⟨da, rfl, hwf, hd, by simp, by simp⟩
  | cons p ps ih =>
    intro da hwf hd hb
    have hsc := hwf.2.1
    simp only [List.length_cons, Nat.cast_add, Nat.cast_one] at hb
    obtain ⟨da1, hp, hsz, hcap, hwf1, hkeep, hnew⟩ := push_spec da p.1 p.2 hwf (by omega)
    have hst := step_push da da1 p.1 p.2 hp
    have habs := abs_push da da1 p.1 hwf hsz hkeep hnew
    obtain ⟨da2, hrun, hwf2, hd2, hsz2, habs2⟩ :=
      ih da1 hwf1 (doubled_push da da1 hwf hd hsz hcap) (by omega)
    refine ⟨da2, ?_, hwf2, hd2, ?_, ?_⟩
    · simp only [pushAll, List.map_cons, run, hst]; exact hrun
    · simp only [List.length_cons, Nat.cast_add, Nat.cast_one]; omega
    · rw [habs2, habs]; simp

theorem run_overflow (ps : List (Handle × (Nat → Handle))) (p : Handle × (Nat → Handle))
    (mem : Nat → Handle) (hlen : ps.length = 1073741824) :
    run { items := some ((List.range 8).map mem), size := 0, capacity := 8 }
      (pushAll (ps ++ [p])) = Result.undefined := by
  obtain ⟨da1, hrun, hwf1, hd1, hsz1, _⟩ := run_pushAll ps _ (new_wellFormed mem)
    ⟨⟨0, by norm_num⟩, Or.inl rfl⟩ (by rw [hlen]; simp)
  have hsize : da1.size = 1073741824 := by rw [hsz1, hlen]; rfl
  have hcap := doubled_at_limit da1 hwf1 hd1 hsize
  have hpush := push_overflow (some p.2) da1 p.1 (by rw [hsize, hcap]) (by omega)
    (by unfold INT_MAX; omega)
  have happ : pushAll (ps ++ [p]) = pushAll ps ++ [Op.push p.1 p.2] := by
    simp [pushAll]
  rw [happ, run_append _ _ _ _ hrun]
  simp only [run, step, hpush]

/-! ## Calls that always return -/

theorem set_spec (da : DA) (x : Handle) (i : Int) (hwf : WellFormed da) (hi0 : 0 ≤ i)
    (hi1 : i < da.size) :
    ∃ buf, da.items = some buf ∧ i.toNat < buf.length ∧
      DA_set da x i = Result.ok
        { ret := (),
          da := { items := some (buf.set i.toNat x), size := da.size, capacity := da.capacity },
          diag := none } ∧
      WellFormed { items := some (buf.set i.toNat x), size := da.size, capacity := da.capacity } := by
  obtain ⟨buf, hbuf, hlen⟩ := hwf.block
  obtain ⟨hs0, hsc, hc0, hcm, _⟩ := hwf
  have hlt : i.toNat < buf.length := by omega
  have hb : ¬ (i < 0 ∨ i ≥ da.size) := by omega
  refine ⟨buf, hbuf, hlt, ?_, ⟨hs0, hsc, hc0, hcm, by simp [hlen]⟩⟩
  simp only [DA_set, if_neg hb, hbuf, store_block buf i x hi0 hlt]

theorem pop_total (da : DA) (hwf : WellFormed da) :
    ∃ st, DA_pop da = Result.ok st ∧ st.da.items = da.items ∧
      st.da.capacity = da.capacity ∧ WellFormed st.da := by
  by_cases hz : da.size = 0
  · exact ⟨{ ret := NULL, da := da, diag := some "Cannot pop from empty array\n" },
      by simp only [DA_pop, if_pos hz], rfl, rfl, hwf⟩
  · have hpos : 0 < da.size := by have := hwf.1; omega
    obtain ⟨v, _, hpop⟩ := pop_spec da hwf hpos
    exact ⟨_, hpop, rfl, rfl, pop_wellFormed da hwf hpos⟩

theorem set_total (da : DA) (x : Handle) (i : Int) (hwf : WellFormed da) :
    ∃ st, DA_set da x i = Result.ok st ∧ st.da.size = da.size ∧
      st.da.capacity = da.capacity ∧ WellFormed st.da := by
  by_cases hb : i < 0 ∨ i ≥ da.size
  · exact ⟨{ ret := (), da := da,
             diag := some ("Index " ++ toString i ++ " out of bounds for setItem\n") },
      by simp only [DA_set, if_pos hb], rfl, rfl, hwf⟩
  · obtain ⟨buf, _, _, hset, hwf2⟩ := set_spec da x i hwf (by omega) (by omega)
    exact ⟨_, hset, rfl, rfl, hwf2⟩

theorem get_total (da : DA) (i : Int) (hwf : WellFormed da) :
    ∃ st, DA_get da i = Result.ok st ∧ st.da = da := by
  by_cases hb : i < 0 ∨ i ≥ da.size
  · exact ⟨{ ret := NULL, da := da,
             diag := some ("Index " ++ toString i ++ " out of bounds for getItem\n") },
      by simp only [DA_get, if_pos hb], rfl⟩
  · obtain ⟨v, _, hget⟩ := get_spec da i hwf (by omega) (by omega)
    exact ⟨_, hget, rfl⟩

theorem grow_capacity_of_full (answer : Option (Nat → Handle)) (da : DA)
    (hfull : da.size = da.capacity) :
    (DA_grow answer da).capacity = wrap32 (da.capacity * 2) ∧
      (DA_grow answer da).size = da.size := by
  simp [DA_grow, hfull]

theorem push_fits_of_ok (answer : Option (Nat → Handle)) (da : DA) (x : Handle)
    (st : Step Unit) (hwf : WellFormed da) (h : DA_push answer da x = Result.ok st) :
    (da.size < da.capacity ∨ da.capacity ≤ 1073741823) ∧
      (da.size = da.capacity → answer ≠ none) := by
  obtain ⟨_, hsc, _, hcm, _⟩ := hwf
  constructor
  · by_contra hn
    rw [push_overflow answer da x (by omega) (by omega) hcm] at h
    exact absurd h (by simp)
  · intro hfull ha
    subst ha
    simp [DA_push, DA_grow, hfull, realloc_items, store] at h

theorem set_same (buf : List Handle) (n : Nat) (v : Handle) (h : buf[n]? = some v) :
    buf.set n v = buf := by
  apply List.ext_getElem?
  intro j
  rw [List.getElem?_set]
  by_cases hj : n = j
  · subst hj
    have hlt : n < buf.length := by
      by_contra hn
      rw [List.getElem?_eq_none (by omega)] at h
      exact absurd h (by simp)
    rw [if_pos rfl, if_pos hlt, h]
  · rw [if_neg hj]

theorem push_undefined_of_null (da : DA) (x : Handle) (hfull : da.size = da.capacity) :
    DA_push none da x = Result.undefined := by
  simp [DA_push, DA_grow, hfull, realloc_items, store]

theorem push_after_pop (answer : Option (Nat → Handle)) (da : DA) (v : Handle)
    (hwf : WellFormed da) (hpos : 0 < da.size)
    (hv : slot da (da.size - 1).toNat = some v) :
    DA_push answer { items := da.items, size := da.size - 1, capacity := da.capacity } v =
      Result.ok { ret := (), da := da, diag := none } := by
  obtain ⟨buf, hbuf, hlen⟩ := hwf.block
  obtain ⟨_, hsc, _, hcm, _⟩ := hwf
  unfold INT_MAX at hcm
  have hne : da.size - 1 ≠ da.capacity := by omega
  have hlt : (da.size - 1).toNat < buf.length := by omega
  have hw : wrap32 (da.size - 1 + 1) = da.size := by
    rw [wrap32_of_int (by omega) (by omega)]; omega
  have hsame : buf.set (da.size - 1).toNat v = buf := by
    apply set_same
    simpa [slot, hbuf] using hv
  have hst := store_block buf (da.size - 1) v (by omega) hlt
  rw [hsame, ← hbuf] at hst
  rw [push_of_store answer _ _ v _ (grow_of_not_full answer _ hne) hst]
  simp only [hw]

/-! ## The container as a plain list -/

theorem abs_pop (da : DA) (v : Handle) (hwf : WellFormed da) (hpos : 0 < da.size)
    (hv : slot da (da.size - 1).toNat = some v) :
    spec_pop (abs da) =
      some (v, abs { items := da.items, size := da.size - 1, capacity := da.capacity }) := by
  have hlen := abs_length da hwf
  have hlast : (abs da).getLast? = some v := by
    rw [List.getLast?_eq_getElem?, abs_getElem?, hlen, if_pos (by omega)]
    have e : da.size.toNat - 1 = (da.size - 1).toNat := by omega
    rw [e, hv]
  have hdrop : (abs da).dropLast =
      abs { items := da.items, size := da.size - 1, capacity := da.capacity } := by
    apply List.ext_getElem?
    intro j
    rw [List.dropLast_eq_take, List.getElem?_take, abs_getElem?, abs_getElem?, hlen]
    by_cases hj : (j : Int) < da.size - 1
    · rw [if_pos (by omega), if_pos (by omega), if_pos hj]; rfl
    · rw [if_neg (by omega), if_neg hj]
  simp only [spec_pop, hlast, hdrop]

theorem abs_set (da : DA) (buf : List Handle) (x : Handle) (n : Nat)
    (hbuf : da.items = some buf) :
    abs { items := some (buf.set n x), size := da.size, capacity := da.capacity } =
      spec_set (abs da) x n := by
  simp only [abs, spec_set, hbuf, Option.getD_some, List.set_take]

/-! ## Reachable states -/

theorem push_answer_irrelevant (a b : Option (Nat → Handle)) (da : DA) (x : Handle)
    (h : da.size ≠ da.capacity) : DA_push a da x = DA_push b da x := by
  simp only [DA_push, grow_of_not_full a da h, grow_of_not_full b da h]

theorem push_ok_spec (answer : Option (Nat → Handle)) (da : DA) (x : Handle) (st : Step Unit)
    (hwf : WellFormed da) (h : DA_push answer da x = Result.ok st) :
    WellFormed st.da ∧ st.da.size = da.size + 1 ∧ da.capacity ≤ st.da.capacity ∧
      st.da.capacity = (if da.size = da.capacity then 2 * da.capacity else da.capacity) := by
  obtain ⟨hfit, hans⟩ := push_fits_of_ok answer da x st hwf h
  have hc0 := hwf.2.2.1
  have key : ∀ mem, DA_push (some mem) da x = Result.ok st →
      WellFormed st.da ∧ st.da.size = da.size + 1 ∧ da.capacity ≤ st.da.capacity ∧
        st.da.capacity = (if da.size = da.capacity then 2 * da.capacity else da.capacity) := by
    intro mem hm
    obtain ⟨da2, hpush, hsz, hcap, hwf2, _, _⟩ := push_spec da x mem hwf hfit
    rw [hpush] at hm
    have e : st.da = da2 := by rw [← Result.ok.inj hm]
    rw [e]
    exact ⟨hwf2, hsz, by rw [hcap]; split <;> omega, hcap⟩
  by_cases hfull : da.size = da.capacity
  · cases answer with
    | none => exact absurd rfl (hans hfull)
    | some mem => exact key mem h
  · exact key (fun _ => 0) (by rw [← push_answer_irrelevant answer _ da x hfull]; exact h)

theorem new_ok_spec (arr : Bool) (answer : Option (Nat → Handle)) (da : DA)
    (h : DA_new arr answer = Result.ok da) : WellFormed da ∧ da.capacity = 8 := by
  cases arr with
  | false => simp [DA_new] at h
  | true =>
    cases answer with
    | none => simp [DA_new, malloc_items] at h
    | some mem =>
      rw [new_spec mem] at h
      rw [← Result.ok.inj h]
      exact ⟨new_wellFormed mem, rfl⟩

theorem reachable_inv (da : DA) (h : Reachable da) : WellFormed da ∧ 8 ≤ da.capacity := by
  induction h with
  | new arr answer da hnew =>
    obtain ⟨hwf, hcap⟩ := new_ok_spec arr answer da hnew
    exact ⟨hwf, by omega⟩
  | push da answer x st _ hpush ih =>
    obtain ⟨hwf2, _, hle, _⟩ := push_ok_spec answer da x st ih.1 hpush
    exact ⟨hwf2, by have := ih.2; omega⟩
  | pop da st _ hpop ih =>
    obtain ⟨st2, hpop2, _, hcap, hwf2⟩ := pop_total da ih.1
    rw [hpop2] at hpop
    rw [← Result.ok.inj hpop]
    exact ⟨hwf2, by rw [hcap]; exact ih.2⟩
  | set da x i st _ hset ih =>
    obtain ⟨st2, hset2, _, hcap, hwf2⟩ := set_total da x i ih.1
    rw [hset2] at hset
    rw [← Result.ok.inj hset]
    exact ⟨hwf2, by rw [hcap]; exact ih.2⟩
  | get da i st _ hget ih =>
    obtain ⟨st2, hget2, hda⟩ := get_total da i ih.1
    rw [hget2] at hget
    rw [← Result.ok.inj hget, hda]
    exact ih

theorem reachable_run (ops : List Op) : ∀ da da2, Reachable da →
    run da ops = Result.ok da2 → Reachable da2 := by
  induction ops with
  | nil => intro da da2 hr h; simp only [run, Result.ok.injEq] at h; rw [← h]; exact hr
  | cons op ops ih =>
    intro da da2 hr h
    simp only [run] at h
    cases hs : step da op with
    | ok d =>
      rw [hs] at h
      refine ih d da2 ?_ h
      cases op with
      | push x mem =>
        simp only [step] at hs
        cases hp : DA_push (some mem) da x with
        | ok st =>
          rw [hp] at hs
          rw [← Result.ok.inj hs]
          exact Reachable.push da (some mem) x st hr hp
        | exited msg => rw [hp] at hs; simp at hs
        | undefined => rw [hp] at hs; simp at hs
      | pop =>
        simp only [step] at hs
        cases hp : DA_pop da with
        | ok st =>
          rw [hp] at hs
          rw [← Result.ok.inj hs]
          exact Reachable.pop da st hr hp
        | exited msg => rw [hp] at hs; simp at hs
        | undefined => rw [hp] at hs; simp at hs
    | exited msg => rw [hs] at h; simp at h
    | undefined => rw [hs] at h; simp at h

theorem grow_overflow (answer : Option (Nat → Handle)) (da : DA)
    (hfull : da.size = da.capacity) (hcap : 1073741824 ≤ da.capacity)
    (hmax : da.capacity ≤ INT_MAX) :
    (DA_grow answer da).items = none ∧ (DA_grow answer da).size = da.size ∧
      (DA_grow answer da).capacity < 0 := by
  unfold INT_MAX at hmax
  have hb : bytes (wrap32 (da.capacity * 2)) > PTRDIFF_MAX := by
    unfold bytes wrap32 PTRDIFF_MAX; omega
  have hw : wrap32 (da.capacity * 2) < 0 := by unfold wrap32; omega
  simp [DA_grow, hfull, realloc_items, hb, hw]

/-! ## The capacity after a sequence of calls -/

theorem tight_least (da : DA) (m : Int) (h : Tight da m) :
    ∃ k : Nat, da.capacity = 8 * 2 ^ k ∧ m ≤ da.capacity ∧
      (∀ j : Nat, m ≤ 8 * 2 ^ j → da.capacity ≤ 8 * 2 ^ j) ∧ (m ≤ 8 → da.capacity = 8) := by
  obtain ⟨⟨k, hk⟩, _, hm, hmin⟩ := h
  have hk1 : (1 : Int) ≤ 2 ^ k := one_le_pow₀ (by decide)
  have hleast : ∀ j : Nat, m ≤ 8 * 2 ^ j → da.capacity ≤ 8 * 2 ^ j := by
    intro j hj
    have hj1 : (1 : Int) ≤ 2 ^ j := one_le_pow₀ (by decide)
    rcases hmin with h8 | hlt
    · omega
    · by_cases hkj : k ≤ j
      · have := pow_le_pow_right₀ (by decide : (1 : Int) ≤ 2) hkj
        omega
      · have h2 := pow_le_pow_right₀ (by decide : (1 : Int) ≤ 2) (show j + 1 ≤ k by omega)
        rw [pow_succ] at h2
        omega
  refine ⟨k, hk, hm, hleast, fun h8 => ?_⟩
  have := hleast 0 (by simpa using h8)
  simp only [pow_zero] at this
  omega

theorem tight_at (da : DA) (m : Int) (j : Nat) (h : Tight da m) (hj : m ≤ 8 * 2 ^ j)
    (hlow : j = 0 ∨ (8 : Int) * 2 ^ j < 2 * m) : da.capacity = 8 * 2 ^ j := by
  obtain ⟨k, hk, hm, hleast, _⟩ := tight_least da m h
  have hle := hleast j hj
  have hk1 : (1 : Int) ≤ 2 ^ k := one_le_pow₀ (by decide)
  rcases hlow with h0 | hlt
  · subst h0
    simp only [pow_zero] at hle ⊢
    omega
  · by_cases hkj : j ≤ k
    · have := pow_le_pow_right₀ (by decide : (1 : Int) ≤ 2) hkj
      omega
    · have h2 := pow_le_pow_right₀ (by decide : (1 : Int) ≤ 2) (show k + 1 ≤ j by omega)
      rw [pow_succ] at h2
      omega

theorem tight_push (da da2 : DA) (m : Int) (hwf : WellFormed da) (ht : Tight da m)
    (hsize : da2.size = da.size + 1)
    (hcap : da2.capacity = if da.size = da.capacity then 2 * da.capacity else da.capacity) :
    Tight da2 (max m (da.size + 1)) := by
  obtain ⟨⟨k, hk⟩, hsm, hmc, hmin⟩ := ht
  obtain ⟨hs0, hsc, hc0, _, _⟩ := hwf
  by_cases hfull : da.size = da.capacity
  · rw [if_pos hfull] at hcap
    refine ⟨⟨k + 1, by rw [hcap, hk, pow_succ]; ring⟩, by omega, by omega, by omega⟩
  · rw [if_neg hfull] at hcap
    exact ⟨⟨k, by rw [hcap, hk]⟩, by omega, by omega, by omega⟩

theorem run_tight (ops : List Op) : ∀ da m, WellFormed da → Tight da m →
    (∀ n ∈ counts da.size ops, n ≤ 1073741824) →
    ∃ da2, run da ops = Result.ok da2 ∧ WellFormed da2 ∧ Tight da2 (peak m da.size ops) := by
  induction ops with
  | nil => intro da m hwf ht _; exact ⟨da, rfl, hwf, ht⟩
  | cons op ops ih =>
    intro da m hwf ht hb
    obtain ⟨hs0, hsc, hc0, hcm, _⟩ := id hwf
    cases op with
    | push x mem =>
      simp only [counts, List.mem_cons, forall_eq_or_imp] at hb
      obtain ⟨da1, hp, hsz, hcap, hwf1, _, _⟩ := push_spec da x mem hwf (by omega)
      have hst := step_push da da1 x mem hp
      obtain ⟨da2, hrun, hwf2, ht2⟩ := ih da1 (max m (da.size + 1)) hwf1
        (tight_push da da1 m hwf ht hsz hcap) (by rw [hsz]; exact hb.2)
      refine ⟨da2, by simp only [run, hst]; exact hrun, hwf2, ?_⟩
      simp only [peak]
      rw [hsz] at ht2
      exact ht2
    | pop =>
      simp only [counts, List.mem_cons, forall_eq_or_imp] at hb
      obtain ⟨hk, hsm, hmc, hmin⟩ := ht
      by_cases hz : da.size = 0
      · have hp : DA_pop da = Result.ok
            { ret := NULL, da := da, diag := some "Cannot pop from empty array\n" } := by
          simp [DA_pop, hz]
        have hst := step_pop da da _ _ hp
        have hnp : ¬ da.size > 0 := by omega
        rw [if_neg hnp] at hb
        obtain ⟨da2, hrun, hwf2, ht2⟩ := ih da m hwf ⟨hk, hsm, hmc, hmin⟩ hb.2
        refine ⟨da2, by simp only [run, hst]; exact hrun, hwf2, ?_⟩
        simp only [peak, if_neg hnp]
        exact ht2
      · have hpos : da.size > 0 := by omega
        obtain ⟨v, _, hp⟩ := pop_spec da hwf hpos
        have hst := step_pop da _ _ _ hp
        have hwf1 := pop_wellFormed da hwf hpos
        rw [if_pos hpos] at hb
        obtain ⟨da2, hrun, hwf2, ht2⟩ := ih _ m hwf1
          ⟨hk, by simp only; omega, hmc, hmin⟩ hb.2
        refine ⟨da2, by simp only [run, hst]; exact hrun, hwf2, ?_⟩
        simp only [peak, if_pos hpos]
        exact ht2

theorem counts_pushAll (ps : List (Handle × (Nat → Handle))) : ∀ n : Int,
    (∀ c ∈ counts n (pushAll ps), c ≤ n + ps.length) ∧
      ∀ m : Int, peak m n (pushAll ps) =
        if ps.length = 0 then m else max m (n + ps.length) := by
  induction ps with
  | nil => intro n; simp [pushAll, counts, peak]
  | cons p ps ih =>
    intro n
    obtain ⟨h1, h2⟩ := ih (n + 1)
    constructor
    · intro c hc
      simp only [pushAll, List.map_cons, counts, List.mem_cons] at hc
      simp only [List.length_cons, Nat.cast_add, Nat.cast_one]
      rcases hc with hc | hc
      · omega
      · have := h1 c hc; omega
    · intro m
      simp only [pushAll, List.map_cons, peak]
      have := h2 (max m (n + 1))
      simp only [pushAll] at this
      rw [this]
      simp only [List.length_cons, Nat.cast_add, Nat.cast_one]
      rw [if_neg (show ¬ ps.length + 1 = 0 by omega)]
      split <;> omega

/-! ## The cost of growth -/

theorem step_push_inv (da d : DA) (x : Handle) (mem : Nat → Handle)
    (h : step da (Op.push x mem) = Result.ok d) :
    ∃ st, DA_push (some mem) da x = Result.ok st ∧ st.da = d := by
  simp only [step] at h
  cases hp : DA_push (some mem) da x with
  | ok st => rw [hp] at h; exact ⟨st, rfl, Result.ok.inj h⟩
  | exited msg => rw [hp] at h; simp at h
  | undefined => rw [hp] at h; simp at h

theorem cost_pushAll (ps : List (Handle × (Nat → Handle))) : ∀ da, WellFormed da →
    carried da (pushAll ps) + da.capacity ≤
        max da.capacity (2 * (da.size + ps.length) - 2) ∧
      da.capacity * 2 ^ growths da (pushAll ps) ≤
        max da.capacity (2 * (da.size + ps.length) - 2) := by
  induction ps with
  | nil => intro da _; simp [pushAll, carried, growths]
  | cons p ps ih =>
    intro da hwf
    obtain ⟨hs0, hsc, hc0, _, _⟩ := id hwf
    simp only [pushAll, List.map_cons, carried, growths, List.length_cons, Nat.cast_add,
      Nat.cast_one]
    cases hs : step da (Op.push p.1 p.2) with
    | ok d =>
      obtain ⟨st, hpush, hd⟩ := step_push_inv da d p.1 p.2 hs
      obtain ⟨hwf1, hsz, _, hcap⟩ := push_ok_spec (some p.2) da p.1 st hwf hpush
      rw [hd] at hwf1 hsz hcap
      obtain ⟨ih1, ih2⟩ := ih d hwf1
      simp only [pushAll] at ih1 ih2
      rw [hsz] at ih1 ih2
      by_cases hfull : da.size = da.capacity
      · rw [if_pos hfull] at hcap
        rw [hcap] at ih1 ih2
        simp only [if_pos hfull]
        refine ⟨by omega, ?_⟩
        have e : da.capacity * 2 ^ (1 + growths d (List.map (fun p => Op.push p.1 p.2) ps)) =
            2 * da.capacity * 2 ^ growths d (List.map (fun p => Op.push p.1 p.2) ps) := by
          rw [pow_add]; ring
        rw [e]
        omega
      · rw [if_neg hfull] at hcap
        rw [hcap] at ih1 ih2
        simp only [if_neg hfull, zero_add]
        exact ⟨by omega, by omega⟩
    | exited msg => simp only [pow_zero]; omega
    | undefined => simp only [pow_zero]; omega

theorem cost_new (mem0 : Nat → Handle) (ps : List (Handle × (Nat → Handle))) :
    carried { items := some ((List.range 8).map mem0), size := 0, capacity := 8 } (pushAll ps) +
        8 ≤ max (8 : Int) (2 * (ps.length : Int) - 2) ∧
      ∀ k : Nat, ps.length ≤ 8 * 2 ^ k →
        growths { items := some ((List.range 8).map mem0), size := 0, capacity := 8 }
          (pushAll ps) ≤ k := by
  obtain ⟨h1, h2⟩ := cost_pushAll ps _ (new_wellFormed mem0)
  simp only [zero_add] at h1 h2
  refine ⟨h1, fun k hk => ?_⟩
  by_contra hlt
  have hpow := pow_le_pow_right₀ (by decide : (1 : Int) ≤ 2)
    (show k + 1 ≤ growths { items := some ((List.range 8).map mem0), size := 0, capacity := 8 }
      (pushAll ps) by omega)
  rw [pow_succ] at hpow
  have hk1 : (1 : Int) ≤ 2 ^ k := one_le_pow₀ (by decide)
  have hk2 : (ps.length : Int) ≤ 8 * 2 ^ k := by exact_mod_cast hk
  omega

/-! ## Several containers -/

theorem call_total (X : DA) (c : Call) (hwf : WellFormed X) (hroom : roomFor X c) :
    ∃ X2, call X c = Result.ok X2 := by
  cases c with
  | push x mem =>
    obtain ⟨da2, hpush, _⟩ := push_spec X x mem hwf hroom
    exact ⟨da2, by simp only [call, hpush]⟩
  | pop =>
    obtain ⟨st, hpop, _⟩ := pop_total X hwf
    exact ⟨st.da, by simp only [call, hpop]⟩
  | set x i =>
    obtain ⟨st, hset, _⟩ := set_total X x i hwf
    exact ⟨st.da, by simp only [call, hset]⟩

/-! ## Containers in memory

The calls on a `DA *` in memory do what the calls on a container do
(`push_at_ok`, `pop_at_ok`, `set_at_ok`), and leave alone every other struct
and every block that is neither the container's nor handed out by the
allocator. A block handed out while in use is overwritten
(`call_at_used_block`). -/

theorem grow_at_view (answer : Option (Nat × (Nat → Handle)))
    (blocks : Nat → Option (List Handle)) (s : Cell) :
    cellView (DA_grow_at answer blocks s).2 (DA_grow_at answer blocks s).1 =
      DA_grow (answer.map Prod.snd) (cellView blocks s) := by
  by_cases hfull : s.size = s.capacity
  · by_cases hb : bytes (wrap32 (s.capacity * 2)) > PTRDIFF_MAX
    · simp [DA_grow_at, DA_grow, cellView, hfull, realloc_at, realloc_items, hb]
    · cases answer with
      | none => simp [DA_grow_at, DA_grow, cellView, hfull, realloc_at, realloc_items, hb]
      | some am =>
        obtain ⟨a, mem⟩ := am
        simp [DA_grow_at, DA_grow, cellView, hfull, realloc_at, realloc_items, hb]
  · simp [DA_grow_at, DA_grow, cellView, hfull]

theorem grow_at_frame (answer : Option (Nat × (Nat → Handle)))
    (blocks : Nat → Option (List Handle)) (s : Cell) (b : Nat) (hsb : s.items ≠ some b)
    (hab : ∀ a mem, answer = some (a, mem) → a ≠ b) :
    (DA_grow_at answer blocks s).1.items ≠ some b ∧
      (DA_grow_at answer blocks s).2 b = blocks b := by
  by_cases hfull : s.size = s.capacity
  · by_cases hb : bytes (wrap32 (s.capacity * 2)) > PTRDIFF_MAX
    · simp [DA_grow_at, hfull, realloc_at, hb]
    · cases answer with
      | none => simp [DA_grow_at, hfull, realloc_at, hb]
      | some am =>
        obtain ⟨a, mem⟩ := am
        have hne : a ≠ b := hab a mem rfl
        have hne2 : ¬ b = a := fun h => hne h.symm
        simp [DA_grow_at, hfull, realloc_at, hb, hne, hne2, hsb]
  · simp [DA_grow_at, hfull, hsb]

theorem grow_at_items (answer : Option (Nat × (Nat → Handle)))
    (blocks : Nat → Option (List Handle)) (s : Cell) :
    (DA_grow_at answer blocks s).1.items = s.items ∨
      (DA_grow_at answer blocks s).1.items = none ∨
      ∃ a mem, answer = some (a, mem) ∧ (DA_grow_at answer blocks s).1.items = some a := by
  by_cases hfull : s.size = s.capacity
  · by_cases hb : bytes (wrap32 (s.capacity * 2)) > PTRDIFF_MAX
    · right; left; simp [DA_grow_at, hfull, realloc_at, hb]
    · cases answer with
      | none => right; left; simp [DA_grow_at, hfull, realloc_at, hb]
      | some am =>
        obtain ⟨a, mem⟩ := am
        right; right
        exact ⟨a, mem, rfl, by simp [DA_grow_at, hfull, realloc_at, hb]⟩
  · left; simp [DA_grow_at, hfull]

theorem push_inv (answer : Option (Nat → Handle)) (da : DA) (x : Handle) (st : Step Unit)
    (h : DA_push answer da x = Result.ok st) :
    ∃ buf, store (DA_grow answer da).items (DA_grow answer da).size x = Result.ok buf ∧
      st.da = { items := buf, size := wrap32 ((DA_grow answer da).size + 1),
                capacity := (DA_grow answer da).capacity } := by
  simp only [DA_push] at h
  cases hst : store (DA_grow answer da).items (DA_grow answer da).size x with
  | ok buf =>
    rw [hst] at h
    exact ⟨buf, rfl, by rw [← Result.ok.inj h]⟩
  | exited msg => rw [hst] at h; simp at h
  | undefined => rw [hst] at h; simp at h

theorem store_ok_some (items : Option (List Handle)) (i : Int) (x : Handle)
    (buf : Option (List Handle)) (h : store items i x = Result.ok buf) :
    items ≠ none ∧ buf ≠ none := by
  cases items with
  | none => simp [store] at h
  | some l =>
    simp only [store] at h
    split at h
    · simp at h
    · split at h
      · rw [← Result.ok.inj h]; simp
      · simp at h

theorem push_at_ok (answer : Option (Nat × (Nat → Handle))) (m : Memory) (da : Nat)
    (x : Handle) (s : Cell) (st : Step Unit) (hs : m.das da = some s)
    (h : DA_push (answer.map Prod.snd) (cellView m.blocks s) x = Result.ok st) :
    ∃ st2 s2, DA_push_at answer m da x = Result.ok st2 ∧ st2.mem.das da = some s2 ∧
      cellView st2.mem.blocks s2 = st.da ∧
      (∀ p, p ≠ da → st2.mem.das p = m.das p) ∧
      (∀ b, s.items ≠ some b → (∀ a mem, answer = some (a, mem) → a ≠ b) →
        st2.mem.blocks b = m.blocks b ∧ s2.items ≠ some b) ∧
      (s2.items = s.items ∨ ∃ a mem, answer = some (a, mem) ∧ s2.items = some a) := by
  obtain ⟨buf, hst, hda⟩ := push_inv _ _ x st h
  have hv := grow_at_view answer m.blocks s
  rw [← hv] at hst hda
  simp only [cellView] at hst hda
  obtain ⟨hitems, _⟩ := store_ok_some _ _ _ _ hst
  have hpush : ∃ st2, DA_push_at answer m da x = Result.ok st2 ∧
      st2.mem.das = (fun p => if p = da then
          some { items := (DA_grow_at answer m.blocks s).1.items,
                 size := wrap32 ((DA_grow_at answer m.blocks s).1.size + 1),
                 capacity := (DA_grow_at answer m.blocks s).1.capacity }
        else m.das p) ∧
      st2.mem.blocks = (fun b => if (DA_grow_at answer m.blocks s).1.items = some b then buf
        else (DA_grow_at answer m.blocks s).2 b) := by
    simp only [DA_push_at, hs, hst]
    exact ⟨_, rfl, rfl, rfl⟩
  obtain ⟨st2, hp, hdas, hblocks⟩ := hpush
  cases hgi : (DA_grow_at answer m.blocks s).1.items with
  | none => rw [hgi] at hitems; simp at hitems
  | some a =>
    refine ⟨st2, { items := (DA_grow_at answer m.blocks s).1.items,
                   size := wrap32 ((DA_grow_at answer m.blocks s).1.size + 1),
                   capacity := (DA_grow_at answer m.blocks s).1.capacity },
      hp, by rw [hdas]; simp, ?_, ?_, ?_, ?_⟩
    · rw [hda, hblocks]; simp [cellView, hgi]
    · intro p hp2; rw [hdas]; simp only [if_neg hp2]
    · intro b hsb hab
      obtain ⟨h1, h2⟩ := grow_at_frame answer m.blocks s b hsb hab
      refine ⟨?_, h1⟩
      rw [hblocks]
      simp only [if_neg h1, h2]
    · rcases grow_at_items answer m.blocks s with h1 | h1 | ⟨a2, mem, h1, h2⟩
      · exact Or.inl h1
      · rw [hgi] at h1; simp at h1
      · exact Or.inr ⟨a2, mem, h1, h2⟩

theorem push_at_undefined (answer : Option (Nat × (Nat → Handle))) (m : Memory) (da : Nat)
    (x : Handle) (s : Cell) (hs : m.das da = some s)
    (h : DA_push (answer.map Prod.snd) (cellView m.blocks s) x = Result.undefined) :
    DA_push_at answer m da x = Result.undefined := by
  have hv := grow_at_view answer m.blocks s
  have hi : (DA_grow (answer.map Prod.snd) (cellView m.blocks s)).items =
      (DA_grow_at answer m.blocks s).1.items.bind (DA_grow_at answer m.blocks s).2 :=
    (congrArg DA.items hv).symm
  have hz : (DA_grow (answer.map Prod.snd) (cellView m.blocks s)).size =
      (DA_grow_at answer m.blocks s).1.size := (congrArg DA.size hv).symm
  simp only [DA_push] at h
  rw [hi, hz] at h
  simp only [DA_push_at, hs]
  cases hst : store ((DA_grow_at answer m.blocks s).1.items.bind (DA_grow_at answer m.blocks s).2)
      (DA_grow_at answer m.blocks s).1.size x with
  | ok buf => rw [hst] at h; simp at h
  | exited msg => rw [hst] at h; simp at h
  | undefined => rfl

theorem cellView_congr (blocks blocks2 : Nat → Option (List Handle)) (s : Cell)
    (h : ∀ b, s.items = some b → blocks2 b = blocks b) :
    cellView blocks2 s = cellView blocks s := by
  cases hi : s.items with
  | none => simp [cellView, hi]
  | some b => simp [cellView, hi, h b hi]

theorem pop_at_ok (m : Memory) (da : Nat) (s : Cell) (st : Step Handle)
    (hs : m.das da = some s) (h : DA_pop (cellView m.blocks s) = Result.ok st) :
    ∃ st2 s2, DA_pop_at m da = Result.ok st2 ∧ st2.ret = st.ret ∧
      st2.mem.das da = some s2 ∧ cellView st2.mem.blocks s2 = st.da ∧
      (∀ p, p ≠ da → st2.mem.das p = m.das p) ∧ st2.mem.blocks = m.blocks ∧
      s2.items = s.items := by
  by_cases hz : s.size = 0
  · have hz2 : (cellView m.blocks s).size = 0 := hz
    simp only [DA_pop, if_pos hz2, Result.ok.injEq] at h
    refine ⟨{ ret := NULL, mem := m, diag := some "Cannot pop from empty array\n" }, s,
      by simp only [DA_pop_at, hs, if_pos hz], by rw [← h], hs, by rw [← h],
      fun _ _ => rfl, rfl, rfl⟩
  · have hz2 : ¬ (cellView m.blocks s).size = 0 := hz
    simp only [DA_pop, if_neg hz2] at h
    have hl : load (cellView m.blocks s).items (wrap32 ((cellView m.blocks s).size - 1)) =
        load (s.items.bind m.blocks) (wrap32 (s.size - 1)) := rfl
    rw [hl] at h
    cases hld : load (s.items.bind m.blocks) (wrap32 (s.size - 1)) with
    | ok v =>
      rw [hld] at h
      simp only [Result.ok.injEq] at h
      refine ⟨{ ret := v,
                mem := { m with das := fun p =>
                  if p = da then some { s with size := wrap32 (s.size - 1) } else m.das p },
                diag := none },
        { s with size := wrap32 (s.size - 1) },
        by simp only [DA_pop_at, hs, if_neg hz, hld], by rw [← h], by simp, by rw [← h]; rfl,
        fun p hp => by simp [hp], rfl, rfl⟩
    | exited msg => rw [hld] at h; simp at h
    | undefined => rw [hld] at h; simp at h

theorem set_at_ok (m : Memory) (da : Nat) (x : Handle) (i : Int) (s : Cell) (st : Step Unit)
    (hs : m.das da = some s) (h : DA_set (cellView m.blocks s) x i = Result.ok st) :
    ∃ st2, DA_set_at m da x i = Result.ok st2 ∧ st2.mem.das = m.das ∧
      cellView st2.mem.blocks s = st.da ∧
      (∀ b, s.items ≠ some b → st2.mem.blocks b = m.blocks b) := by
  by_cases hb : i < 0 ∨ i ≥ s.size
  · have hb2 : i < 0 ∨ i ≥ (cellView m.blocks s).size := hb
    simp only [DA_set, if_pos hb2, Result.ok.injEq] at h
    exact ⟨{ ret := (), mem := m,
             diag := some ("Index " ++ toString i ++ " out of bounds for setItem\n") },
      by simp only [DA_set_at, hs, if_pos hb], rfl, by rw [← h], fun _ _ => rfl⟩
  · have hb2 : ¬ (i < 0 ∨ i ≥ (cellView m.blocks s).size) := hb
    simp only [DA_set, if_neg hb2] at h
    have hl : store (cellView m.blocks s).items i x = store (s.items.bind m.blocks) i x := rfl
    rw [hl] at h
    cases hst : store (s.items.bind m.blocks) i x with
    | ok buf =>
      rw [hst] at h
      simp only [Result.ok.injEq] at h
      obtain ⟨hitems, _⟩ := store_ok_some _ _ _ _ hst
      refine ⟨{ ret := (),
                mem := { m with blocks := fun b => if s.items = some b then buf else m.blocks b },
                diag := none },
        by simp only [DA_set_at, hs, if_neg hb, hst], rfl, ?_, fun b hsb => by simp [hsb]⟩
      rw [← h]
      cases hi : s.items with
      | none => rw [hi] at hitems; simp at hitems
      | some a => simp [cellView, hi]
    | exited msg => rw [hst] at h; simp at h
    | undefined => rw [hst] at h; simp at h

theorem call_at_ok (m : Memory) (da a : Nat) (c : Call) (s : Cell) (X2 : DA)
    (hs : m.das da = some s) (h : call (cellView m.blocks s) c = Result.ok X2) :
    ∃ m2 s2, call_at m da a c = Result.ok m2 ∧ m2.das da = some s2 ∧
      cellView m2.blocks s2 = X2 ∧ (∀ p, p ≠ da → m2.das p = m.das p) ∧
      (∀ b, s.items ≠ some b → a ≠ b → m2.blocks b = m.blocks b) := by
  cases c with
  | push x mem =>
    simp only [call] at h
    cases hp : DA_push (some mem) (cellView m.blocks s) x with
    | ok st =>
      rw [hp] at h
      obtain ⟨st2, s2, hpa, hd, hv, hfd, hfb, _⟩ :=
        push_at_ok (some (a, mem)) m da x s st hs hp
      refine ⟨st2.mem, s2, by simp only [call_at, hpa], hd, by rw [hv]; exact Result.ok.inj h,
        hfd, fun b hsb hab => (hfb b hsb ?_).1⟩
      intro a2 mem2 he
      simp only [Option.some.injEq, Prod.mk.injEq] at he
      rw [← he.1]; exact hab
    | exited msg => rw [hp] at h; simp at h
    | undefined => rw [hp] at h; simp at h
  | pop =>
    simp only [call] at h
    cases hp : DA_pop (cellView m.blocks s) with
    | ok st =>
      rw [hp] at h
      obtain ⟨st2, s2, hpa, _, hd, hv, hfd, hfb, _⟩ := pop_at_ok m da s st hs hp
      exact ⟨st2.mem, s2, by simp only [call_at, hpa], hd, by rw [hv]; exact Result.ok.inj h,
        hfd, fun b _ _ => by rw [hfb]⟩
    | exited msg => rw [hp] at h; simp at h
    | undefined => rw [hp] at h; simp at h
  | set x i =>
    simp only [call] at h
    cases hp : DA_set (cellView m.blocks s) x i with
    | ok st =>
      rw [hp] at h
      obtain ⟨st2, hpa, hd, hv, hfb⟩ := set_at_ok m da x i s st hs hp
      exact ⟨st2.mem, s, by simp only [call_at, hpa], by rw [hd]; exact hs,
        by rw [hv]; exact Result.ok.inj h, fun p _ => by rw [hd],
        fun b hsb _ => hfb b hsb⟩
    | exited msg => rw [hp] at h; simp at h
    | undefined => rw [hp] at h; simp at h

theorem run_at_ok (hops : List (Op × Nat)) (da b : Nat) : ∀ (m : Memory) (s : Cell) (X2 : DA),
    m.das da = some s → s.items ≠ some b → (∀ h ∈ hops, h.2 ≠ b) →
    run (cellView m.blocks s) (hops.map Prod.fst) = Result.ok X2 →
    ∃ m2 s2, run_at m da hops = Result.ok m2 ∧ m2.das da = some s2 ∧
      cellView m2.blocks s2 = X2 ∧ (∀ p, p ≠ da → m2.das p = m.das p) ∧
      m2.blocks b = m.blocks b := by
  induction hops with
  | nil =>
    intro m s X2 hs _ _ h
    simp only [List.map_nil, run, Result.ok.injEq] at h
    exact ⟨m, s, rfl, hs, h, fun _ _ => rfl, rfl⟩
  | cons hop hops ih =>
    intro m s X2 hs hsb hab h
    obtain ⟨op, a⟩ := hop
    have ha : a ≠ b := hab (op, a) (List.mem_cons_self _ _)
    have hab2 : ∀ h ∈ hops, h.2 ≠ b := fun h hh => hab h (List.mem_cons_of_mem _ hh)
    simp only [List.map_cons, run] at h
    cases op with
    | push x mem =>
      simp only [step] at h
      cases hp : DA_push (some mem) (cellView m.blocks s) x with
      | ok st =>
        rw [hp] at h
        simp only at h
        obtain ⟨st2, s2, hpa, hd, hv, hfd, hfb, _⟩ :=
          push_at_ok (some (a, mem)) m da x s st hs hp
        obtain ⟨hb1, hb2⟩ := hfb b hsb (by
          intro a2 mem2 he
          simp only [Option.some.injEq, Prod.mk.injEq] at he
          rw [← he.1]; exact ha)
        rw [← hv] at h
        obtain ⟨m3, s3, hrun, hd3, hv3, hfd3, hfb3⟩ := ih st2.mem s2 X2 hd hb2 hab2 h
        exact ⟨m3, s3, by simp only [run_at, hpa]; exact hrun, hd3, hv3,
          fun p hp2 => by rw [hfd3 p hp2, hfd p hp2], by rw [hfb3, hb1]⟩
      | exited msg => rw [hp] at h; simp at h
      | undefined => rw [hp] at h; simp at h
    | pop =>
      simp only [step] at h
      cases hp : DA_pop (cellView m.blocks s) with
      | ok st =>
        rw [hp] at h
        simp only at h
        obtain ⟨st2, s2, hpa, _, hd, hv, hfd, hfb, hit⟩ := pop_at_ok m da s st hs hp
        rw [← hv] at h
        obtain ⟨m3, s3, hrun, hd3, hv3, hfd3, hfb3⟩ :=
          ih st2.mem s2 X2 hd (by rw [hit]; exact hsb) hab2 h
        exact ⟨m3, s3, by simp only [run_at, hpa]; exact hrun, hd3, hv3,
          fun p hp2 => by rw [hfd3 p hp2, hfd p hp2], by rw [hfb3, hfb]⟩
      | exited msg => rw [hp] at h; simp at h
      | undefined => rw [hp] at h; simp at h

theorem call_at_used_block :
    ∃ m1, call_at duo 1 20 (Call.push 9 (fun _ => 0)) = Result.ok m1 ∧
      duo.blocks 20 = some [11, 12, 13, 14] ∧
      m1.blocks 20 = some [1, 2, 3, 4, 5, 6, 7, 8, 9, 0, 0, 0, 0, 0, 0, 0] :=
  ⟨_, rfl, rfl, rfl⟩

/-! ## The claims -/

/-- C1, refuted as stated: 2^30 + 1 pushes on a new container do not run to
the end. The last push finds the container full with capacity 2^30, and
doubling leaves the range of `int`. -/
theorem C1_pushes_past_limit :
    ∃ da0, DA_new true (some (fun _ => 0)) = Result.ok da0 ∧
      run da0 (List.replicate 1073741824 (Op.push 5 (fun _ => 0)) ++
        [Op.push 5 (fun _ => 0)]) = Result.undefined := by
  refine ⟨_, new_spec _, ?_⟩
  have e : pushAll (List.replicate 1073741824 ((5 : Handle), fun _ : Nat => (0 : Handle)) ++
      [(5, fun _ => 0)]) =
      List.replicate 1073741824 (Op.push 5 (fun _ => 0)) ++ [Op.push 5 (fun _ => 0)] := by
    unfold pushAll
    rw [List.map_append, List.map_replicate]
    rfl
  rw [← e]
  exact run_overflow _ _ _ (List.length_replicate _ _)

/-- C1, amended: for every finite sequence of `DA_push` and `DA_pop` calls on
a container returned by `DA_new` that never asks for more than 2^30 elements
(allocations succeeding), the sequence runs to the end, `DA_size` is then the
number of pushes minus the number of pops made while size was positive, and
after every call `0 <= size <= capacity`. -/
theorem C1_size_invariant (mem0 : Nat → Handle) (ops : List Op)
    (hb : ∀ n ∈ counts 0 ops, n ≤ 1073741824) :
    ∃ da0 da, DA_new true (some mem0) = Result.ok da0 ∧ run da0 ops = Result.ok da ∧
      DA_size da = (pushes ops : Int) - (successfulPops da0 ops : Int) ∧
      ∀ r ∈ trace da0 ops, ∃ s, r = Result.ok s ∧ 0 ≤ s.size ∧ s.size ≤ s.capacity := by
  obtain ⟨da, hrun, _, hsz, htr⟩ := run_bounded ops _ (new_wellFormed mem0) hb
  refine ⟨_, da, new_spec mem0, hrun, ?_, ?_⟩
  · simp only [DA_size, hsz]; omega
  · intro r hr
    obtain ⟨s, hs, hwf⟩ := htr r hr
    exact ⟨s, hs, hwf.1, hwf.2.1⟩

/-- Witness of C1 on the sequence `demo`. -/
theorem C1_size_invariant_witness :
    (∀ n ∈ counts 0 demo, n ≤ 1073741824) ∧
      ∃ da0 da, DA_new true (some (fun _ => 0)) = Result.ok da0 ∧
        run da0 demo = Result.ok da ∧
        DA_size da = (pushes demo : Int) - (successfulPops da0 demo : Int) ∧
        ∀ r ∈ trace da0 demo, ∃ s, r = Result.ok s ∧ 0 ≤ s.size ∧ s.size ≤ s.capacity :=
  ⟨by decide, C1_size_invariant (fun _ => 0) demo (by decide)⟩

/-- C2, refuted as stated: `nearly` is well-formed with capacity 2^30 and one
free slot; the first push returns and fills it, and the second push does not
return, whatever the allocator answers. -/
theorem C2_second_push_undefined :
    WellFormed nearly ∧ ∀ a1 a2, ∃ s1, DA_push a1 nearly 1 = Result.ok s1 ∧
      DA_push a2 s1.da 2 = Result.undefined := by
  have hlen : (List.replicate 1073741824 (3 : Handle)).length = 1073741824 :=
    List.length_replicate _ _
  refine ⟨nearly_wellFormed, fun a1 a2 => ?_⟩
  have hne : nearly.size ≠ nearly.capacity := by
    show (1073741823 : Int) ≠ 1073741824
    decide
  have hg : DA_grow a1 nearly = nearly := grow_of_not_full a1 nearly hne
  have hst : store nearly.items nearly.size 1 =
      Result.ok (some ((List.replicate 1073741824 (3 : Handle)).set
        (1073741823 : Int).toNat 1)) :=
    store_block (List.replicate 1073741824 (3 : Handle)) 1073741823 1 (by decide)
      (by rw [hlen]; decide)
  refine ⟨_, push_of_store a1 nearly nearly 1 _ hg hst, ?_⟩
  refine push_overflow a2 _ 2 ?_ ?_ ?_
  · show wrap32 ((1073741823 : Int) + 1) = 1073741824
    decide
  · exact le_of_eq rfl
  · show (1073741824 : Int) ≤ 2147483647
    decide

/-- C2, amended: on a well-formed container with two free slots or a capacity
below 2^30, after `DA_push(h1)` then `DA_push(h2)` (reallocations succeeding)
the first `DA_pop` returns `h2`, the second returns `h1`, and `DA_size` is
back to its value before the two pushes. -/
theorem C2_lifo (da : DA) (h1 h2 : Handle) (mem1 mem2 : Nat → Handle) (hwf : WellFormed da)
    (hfit : da.size + 2 ≤ da.capacity ∨ da.capacity ≤ 1073741823) :
    ∃ s1 s2 s3 s4, DA_push (some mem1) da h1 = Result.ok s1 ∧
      DA_push (some mem2) s1.da h2 = Result.ok s2 ∧
      DA_pop s2.da = Result.ok s3 ∧ s3.ret = h2 ∧ s3.diag = none ∧
      DA_pop s3.da = Result.ok s4 ∧ s4.ret = h1 ∧ s4.diag = none ∧
      DA_size s4.da = DA_size da := by
  have hwf0 := hwf
  obtain ⟨hs0, hsc, hc0, hcm, _⟩ := hwf0
  obtain ⟨d1, hp1, hsz1, hcap1, hwf1, hkeep1, hnew1⟩ :=
    push_spec da h1 mem1 hwf (by omega)
  have hfit1 : d1.size < d1.capacity ∨ d1.capacity ≤ 1073741823 := by
    rw [hsz1, hcap1]; split <;> omega
  obtain ⟨d2, hp2, hsz2, hcap2, hwf2, hkeep2, hnew2⟩ := push_spec d1 h2 mem2 hwf1 hfit1
  obtain ⟨v, hv, hpop1⟩ := pop_spec d2 hwf2 (by omega)
  have hwf3 := pop_wellFormed d2 hwf2 (by omega)
  obtain ⟨w, hw, hpop2⟩ := pop_spec _ hwf3 (by simp only; omega)
  have hv2 : v = h2 := by
    have e : (d2.size - 1).toNat = d1.size.toNat := by omega
    rw [e, hnew2] at hv; exact (Option.some.inj hv).symm
  have hw1 : w = h1 := by
    have e : (d2.size - 1 - 1).toNat = da.size.toNat := by omega
    have hs : slot { items := d2.items, size := d2.size - 1, capacity := d2.capacity }
        da.size.toNat = slot d2 da.size.toNat := rfl
    simp only at hw
    rw [e, hs, hkeep2 da.size.toNat (by omega), hnew1] at hw
    exact (Option.some.inj hw).symm
  refine ⟨_, _, _, _, hp1, hp2, hpop1, hv2, rfl, hpop2, hw1, rfl, ?_⟩
  simp only [DA_size]; omega

/-- Witness of C2 on `sample`, which has two free slots. -/
theorem C2_lifo_witness :
    WellFormed sample ∧ (sample.size + 2 ≤ sample.capacity ∨ sample.capacity ≤ 1073741823) ∧
      ∃ s1 s2 s3 s4, DA_push (some (fun _ => 0)) sample 21 = Result.ok s1 ∧
        DA_push (some (fun _ => 0)) s1.da 22 = Result.ok s2 ∧
        DA_pop s2.da = Result.ok s3 ∧ s3.ret = 22 ∧ s3.diag = none ∧
        DA_pop s3.da = Result.ok s4 ∧ s4.ret = 21 ∧ s4.diag = none ∧
        DA_size s4.da = DA_size sample :=
  ⟨by decide, by decide,
    C2_lifo sample 21 22 (fun _ => 0) (fun _ => 0) (by decide) (by decide)⟩

/-- C3, refuted as stated: for n = 2^30 + 1 the pushes do not run to the end,
so that `DA_size` is not n. -/
theorem C3_pushes_past_limit :
    ∃ da0, DA_new true (some (fun _ => 0)) = Result.ok da0 ∧
      run da0 (pushAll (List.replicate 1073741824 (7, fun _ => 0) ++ [(7, fun _ => 0)])) =
        Result.undefined :=
  ⟨_, new_spec _, run_overflow _ _ _ (List.length_replicate _ _)⟩

/-- C3, amended: for every n up to 2^30 and every list of handles
h_0 .. h_{n-1} pushed one at a time with `DA_push` onto a container returned
by `DA_new` (allocations succeeding), the pushes run to the end, `DA_size` is
n and `DA_get(i)` returns h_i for every `0 <= i < n`, however many capacity
doublings occurred in between. -/
theorem C3_growth_preserves (mem0 : Nat → Handle) (ps : List (Handle × (Nat → Handle)))
    (hn : ps.length ≤ 1073741824) :
    ∃ da0 da, DA_new true (some mem0) = Result.ok da0 ∧
      run da0 (pushAll ps) = Result.ok da ∧ DA_size da = ps.length ∧
      ∀ (i : Nat) (hi : i < ps.length),
        DA_get da (i : Int) = Result.ok { ret := (ps.get ⟨i, hi⟩).1, da := da, diag := none } := by
  obtain ⟨da, hrun, hwf, _, hsz, habs⟩ := run_pushAll ps _ (new_wellFormed mem0)
    ⟨⟨0, by norm_num⟩, Or.inl rfl⟩ (by simp only; omega)
  refine ⟨_, da, new_spec mem0, hrun, by simp only [DA_size, hsz]; omega, fun i hi => ?_⟩
  apply get_of_abs da hwf
  have h0 : abs { items := some ((List.range 8).map mem0), size := 0, capacity := 8 } = [] := by
    simp [abs]
  rw [habs, h0, List.nil_append, List.getElem?_map, List.getElem?_eq_getElem hi]
  rfl

/-- Witness of C3 on `nine`: nine pushes, the ninth doubling the capacity. -/
theorem C3_growth_preserves_witness :
    nine.length ≤ 1073741824 ∧
      ∃ da0 da, DA_new true (some (fun _ => 0)) = Result.ok da0 ∧
        run da0 (pushAll nine) = Result.ok da ∧ DA_size da = nine.length ∧
        ∀ (i : Nat) (hi : i < nine.length),
          DA_get da (i : Int) =
            Result.ok { ret := (nine.get ⟨i, hi⟩).1, da := da, diag := none } :=
  ⟨by decide, C3_growth_preserves (fun _ => 0) nine (by decide)⟩

/-- C4: on a well-formed container, for an index `0 <= i < size` and any handle
`h`, `DA_set(h, i)` returns and a following `DA_get(i)` returns `h`, on the
non-error branch. -/
theorem C4_set_then_get (da : DA) (h : Handle) (i : Int) (hwf : WellFormed da)
    (hi0 : 0 ≤ i) (hi1 : i < da.size) :
    ∃ st, DA_set da h i = Result.ok st ∧
      DA_get st.da i = Result.ok { ret := h, da := st.da, diag := none } := by
  obtain ⟨buf, hbuf, hlen⟩ := hwf.block
  obtain ⟨_, hsc, _, _, _⟩ := hwf
  have hlt : i.toNat < buf.length := by omega
  have hlt2 : i.toNat < (buf.set i.toNat h).length := by simpa using hlt
  have hb : ¬ (i < 0 ∨ i ≥ da.size) := by omega
  refine ⟨{ ret := (), da := { da with items := some (buf.set i.toNat h) }, diag := none }, ?_, ?_⟩
  · simp only [DA_set, if_neg hb, hbuf, store_block buf i h hi0 hlt]
  · simp only [DA_get, if_neg hb, load_block _ i hi0 hlt2]
    simp

/-- Witness of C4 on `sample`: index 1, handle 9. -/
theorem C4_set_then_get_witness :
    WellFormed sample ∧ (0 : Int) ≤ 1 ∧ (1 : Int) < sample.size ∧
      ∃ st, DA_set sample 9 1 = Result.ok st ∧
        DA_get st.da 1 = Result.ok { ret := 9, da := st.da, diag := none } :=
  ⟨by decide, by decide, by decide,
    C4_set_then_get sample 9 1 (by decide) (by decide) (by decide)⟩

/-- C5: for every container and every index `i`, `DA_get(i)` takes its error
branch (returns `NULL`, container untouched, a diagnostic on `stderr`) exactly
when `i < 0` or `i >= size`, and `DA_set(h, i)` takes its error branch (the
whole container state untouched, a diagnostic on `stderr`) exactly when
`i < 0` or `i >= size`. -/
theorem C5_out_of_bounds (da : DA) (h : Handle) (i : Int) :
    ((i < 0 ∨ i ≥ da.size) ↔
        DA_get da i = Result.ok
          { ret := NULL, da := da,
            diag := some ("Index " ++ toString i ++ " out of bounds for getItem\n") }) ∧
    ((i < 0 ∨ i ≥ da.size) ↔
        DA_set da h i = Result.ok
          { ret := (), da := da,
            diag := some ("Index " ++ toString i ++ " out of bounds for setItem\n") }) ∧
    (¬ (i < 0 ∨ i ≥ da.size) →
        (∀ st, DA_get da i = Result.ok st → st.diag = none) ∧
        (∀ st, DA_set da h i = Result.ok st → st.diag = none)) := by
  by_cases hb : i < 0 ∨ i ≥ da.size
  · simp [DA_get, DA_set, hb]
  · have hget : ∀ st, DA_get da i = Result.ok st → st.diag = none := by
      intro st hst
      simp only [DA_get, if_neg hb] at hst
      split at hst <;> simp at hst
      rw [← hst]
    have hset : ∀ st, DA_set da h i = Result.ok st → st.diag = none := by
      intro st hst
      simp only [DA_set, if_neg hb] at hst
      split at hst <;> simp at hst
      rw [← hst]
    refine ⟨⟨fun h1 => absurd h1 hb, fun h1 => ?_⟩, ⟨fun h1 => absurd h1 hb, fun h1 => ?_⟩,
      fun _ => ⟨hget, hset⟩⟩
    · have := hget _ h1; simp at this
    · have := hset _ h1; simp at this

/-- C6: for every container, `DA_pop` takes its error branch (returns `NULL`,
leaves size, capacity and block untouched, writes the diagnostic) exactly when
`size == 0`; `DA_size` is then still 0. -/
theorem C6_pop_empty (da : DA) :
    (da.size = 0 ↔
        DA_pop da = Result.ok
          { ret := NULL, da := da, diag := some "Cannot pop from empty array\n" }) ∧
    (da.size = 0 → ∀ st, DA_pop da = Result.ok st → DA_size st.da = 0) ∧
    (da.size ≠ 0 → ∀ st, DA_pop da = Result.ok st → st.diag = none) := by
  by_cases hz : da.size = 0
  · simp [DA_pop, hz, DA_size]
  · have hpop : ∀ st, DA_pop da = Result.ok st → st.diag = none := by
      intro st hst
      simp only [DA_pop, if_neg hz] at hst
      split at hst <;> simp at hst
      rw [← hst]
    refine ⟨⟨fun h1 => absurd h1 hz, fun h1 => ?_⟩, fun h1 => absurd h1 hz, fun _ => hpop⟩
    have := hpop _ h1; simp at this

/-- C7: when both allocations succeed, `DA_new` returns a container of size 0
and capacity 8 over a block of 8 slots, and `DA_size` of it is 0. -/
theorem C7_new (mem : Nat → Handle) :
    ∃ da, DA_new true (some mem) = Result.ok da ∧ da.size = 0 ∧ da.capacity = 8 ∧
      DA_size da = 0 ∧ da.items = some ((List.range 8).map mem) :=
  ⟨_, new_spec mem, rfl, rfl, rfl, rfl⟩

/-- C8, refuted as stated: `brimful` is well-formed and full with capacity
2^30, and `DA_push` on it does not return, whatever the allocator answers:
the doubled capacity leaves the range of `int`. -/
theorem C8_push_brimful_undefined :
    WellFormed brimful ∧ ∀ answer, DA_push answer brimful 7 = Result.undefined := by
  refine ⟨brimful_wellFormed, fun answer => ?_⟩
  have hfull : brimful.size = brimful.capacity := rfl
  have hcap : (1073741824 : Int) ≤ brimful.capacity := le_of_eq rfl
  have hmax : brimful.capacity ≤ INT_MAX := by
    show (1073741824 : Int) ≤ 2147483647
    decide
  exact push_overflow answer brimful 7 hfull hcap hmax

/-- C8, amended: on a well-formed container that is not full or whose capacity
is below 2^30, `DA_push(h)` with a successful reallocation returns a state in
which size is the old size plus 1, capacity is twice the old capacity if the
container was full and the old capacity otherwise, the slot at index old size
holds `h`, and every slot below old size holds what it held. -/
theorem C8_push_effect (da : DA) (h : Handle) (mem : Nat → Handle) (hwf : WellFormed da)
    (hfit : da.size < da.capacity ∨ da.capacity ≤ 1073741823) :
    ∃ st, DA_push (some mem) da h = Result.ok st ∧
      st.da.size = da.size + 1 ∧
      st.da.capacity = (if da.size = da.capacity then 2 * da.capacity else da.capacity) ∧
      slot st.da da.size.toNat = some h ∧
      (∀ j : Nat, (j : Int) < da.size → slot st.da j = slot da j) := by
  obtain ⟨da2, hpush, hsize, hcap, _, hkeep, hnew⟩ := push_spec da h mem hwf hfit
  exact ⟨_, hpush, hsize, hcap, hnew, hkeep⟩

/-- Witness of C8 on `sample`, which has room left. -/
theorem C8_push_effect_witness :
    WellFormed sample ∧ (sample.size < sample.capacity ∨ sample.capacity ≤ 1073741823) ∧
      ∃ st, DA_push (some (fun _ => 0)) sample 9 = Result.ok st ∧
        st.da.size = sample.size + 1 ∧
        st.da.capacity =
          (if sample.size = sample.capacity then 2 * sample.capacity else sample.capacity) ∧
        slot st.da sample.size.toNat = some 9 ∧
        (∀ j : Nat, (j : Int) < sample.size → slot st.da j = slot sample j) :=
  ⟨by decide, by decide,
    C8_push_effect sample 9 (fun _ => 0) (by decide) (by decide)⟩

/-- C9: on a well-formed container with `size > 0`, `DA_pop` returns the handle
`DA_get(size - 1)` returned before the call, makes size one less, leaves
capacity and the block (the popped slot included) as they were, and
`DA_get` at the old last index then takes its out-of-bounds branch. -/
theorem C9_pop_last (da : DA) (hwf : WellFormed da) (hpos : 0 < da.size) :
    ∃ v, DA_get da (da.size - 1) = Result.ok { ret := v, da := da, diag := none } ∧
      DA_pop da = Result.ok
        { ret := v, da := { items := da.items, size := da.size - 1, capacity := da.capacity },
          diag := none } ∧
      DA_get { items := da.items, size := da.size - 1, capacity := da.capacity } (da.size - 1) =
        Result.ok
          { ret := NULL,
            da := { items := da.items, size := da.size - 1, capacity := da.capacity },
            diag := some ("Index " ++ toString (da.size - 1) ++ " out of bounds for getItem\n") } := by
  obtain ⟨v, hv, hpop⟩ := pop_spec da hwf hpos
  obtain ⟨w, hw, hget⟩ := get_spec da (da.size - 1) hwf (by omega) (by omega)
  have hvw : w = v := by rw [hv] at hw; exact (Option.some.inj hw).symm
  refine ⟨v, by rw [hget, hvw], hpop, ?_⟩
  simp [DA_get]

/-- Witness of C9 on `sample`. -/
theorem C9_pop_last_witness :
    WellFormed sample ∧ 0 < sample.size ∧
      ∃ v, DA_get sample (sample.size - 1) =
          Result.ok { ret := v, da := sample, diag := none } ∧
        DA_pop sample = Result.ok
          { ret := v,
            da := { items := sample.items, size := sample.size - 1,
                    capacity := sample.capacity },
            diag := none } ∧
        DA_get { items := sample.items, size := sample.size - 1, capacity := sample.capacity }
            (sample.size - 1) =
          Result.ok
            { ret := NULL,
              da := { items := sample.items, size := sample.size - 1,
                      capacity := sample.capacity },
              diag := some ("Index " ++ toString (sample.size - 1) ++
                " out of bounds for getItem\n") } :=
  ⟨by decide, by decide, C9_pop_last sample (by decide) (by decide)⟩

/-- C10: on a well-formed container, for an index `0 <= i < size` and any
handle `h`, `DA_set(h, i)` returns with size and capacity as before and every
slot `j != i` of the block holding what it held, so that `DA_get(j)` returns
the same handle for every valid `j != i`. -/
theorem C10_set_frame (da : DA) (h : Handle) (i : Int) (hwf : WellFormed da)
    (hi0 : 0 ≤ i) (hi1 : i < da.size) :
    ∃ st, DA_set da h i = Result.ok st ∧ st.da.size = da.size ∧
      st.da.capacity = da.capacity ∧
      (∀ j : Nat, (j : Int) ≠ i → slot st.da j = slot da j) ∧
      (∀ j : Int, 0 ≤ j → j < da.size → j ≠ i →
        ∃ v, DA_get da j = Result.ok { ret := v, da := da, diag := none } ∧
          DA_get st.da j = Result.ok { ret := v, da := st.da, diag := none }) := by
  obtain ⟨buf, hbuf, hlen⟩ := hwf.block
  have hwf2 := hwf
  obtain ⟨hs0, hsc, hc0, hcm, _⟩ := hwf2
  have hlt : i.toNat < buf.length := by omega
  have hb : ¬ (i < 0 ∨ i ≥ da.size) := by omega
  have hslot : ∀ j : Nat, (j : Int) ≠ i →
      slot { items := some (buf.set i.toNat h), size := da.size, capacity := da.capacity } j =
        slot da j := by
    intro j hj
    have hne : i.toNat ≠ j := by omega
    simp only [slot, hbuf, List.getElem?_set_ne hne]
  have hwf3 : WellFormed
      { items := some (buf.set i.toNat h), size := da.size, capacity := da.capacity } :=
    ⟨hs0, hsc, hc0, hcm, by simp [hlen]⟩
  refine ⟨{ ret := (), da := { da with items := some (buf.set i.toNat h) }, diag := none },
    ?_, rfl, rfl, hslot, ?_⟩
  · simp only [DA_set, if_neg hb, hbuf, store_block buf i h hi0 hlt]
  · intro j hj0 hj1 hji
    obtain ⟨v, hv, hget⟩ := get_spec da j hwf hj0 hj1
    obtain ⟨w, hw, hget2⟩ := get_spec _ j hwf3 hj0 hj1
    have hvw : w = v := by
      rw [hslot j.toNat (by omega), hv] at hw; exact (Option.some.inj hw).symm
    exact ⟨v, hget, by rw [hget2, hvw]⟩

/-- Witness of C10 on `sample`: index 0, handle 9. -/
theorem C10_set_frame_witness :
    WellFormed sample ∧ (0 : Int) ≤ 0 ∧ (0 : Int) < sample.size ∧
      ∃ st, DA_set sample 9 0 = Result.ok st ∧ st.da.size = sample.size ∧
        st.da.capacity = sample.capacity ∧
        (∀ j : Nat, (j : Int) ≠ 0 → slot st.da j = slot sample j) ∧
        (∀ j : Int, 0 ≤ j → j < sample.size → j ≠ 0 →
          ∃ v, DA_get sample j = Result.ok { ret := v, da := sample, diag := none } ∧
            DA_get st.da j = Result.ok { ret := v, da := st.da, diag := none }) :=
  ⟨by decide, by decide, by decide,
    C10_set_frame sample 9 0 (by decide) (by decide) (by decide)⟩

/-- C11, refuted as stated: `brimful` is well-formed, and the growth step of
`DA_push` on it leaves the capacity at -2^31, below the 2^30 it was, after
which the push does not return. -/
theorem C11_capacity_wraps :
    WellFormed brimful ∧ ∀ answer,
      (DA_grow answer brimful).capacity = -2147483648 ∧
      (DA_grow answer brimful).capacity < brimful.capacity ∧
      DA_push answer brimful 4 = Result.undefined := by
  refine ⟨brimful_wellFormed, fun answer => ?_⟩
  have hfull : brimful.size = brimful.capacity := rfl
  have hcap : brimful.capacity = 1073741824 := rfl
  have hg := (grow_capacity_of_full answer brimful hfull).1
  have hw : wrap32 (brimful.capacity * 2) = -2147483648 := by
    rw [hcap]; decide
  refine ⟨by rw [hg, hw], by rw [hg, hw, hcap]; decide, ?_⟩
  exact push_overflow answer brimful 4 hfull (le_of_eq hcap.symm)
    (by rw [hcap]; decide)

/-- C11, amended: on a well-formed container `DA_pop`, `DA_set` and `DA_get`
return for any arguments and leave the capacity exactly as it was; `DA_push`
on a container that is not full or whose capacity is below 2^30 (the
reallocation succeeding) returns with a capacity at least the old one, equal
to it if the container was not full and twice it if the container was full. -/
theorem C11_capacity_monotone (da : DA) (x : Handle) (i : Int) (mem : Nat → Handle)
    (hwf : WellFormed da) :
    ((da.size < da.capacity ∨ da.capacity ≤ 1073741823) →
      ∃ st, DA_push (some mem) da x = Result.ok st ∧ da.capacity ≤ st.da.capacity ∧
        st.da.capacity = (if da.size = da.capacity then 2 * da.capacity else da.capacity)) ∧
    (∃ st, DA_pop da = Result.ok st ∧ st.da.capacity = da.capacity) ∧
    (∃ st, DA_set da x i = Result.ok st ∧ st.da.capacity = da.capacity) ∧
    (∃ st, DA_get da i = Result.ok st ∧ st.da.capacity = da.capacity) := by
  refine ⟨fun hfit => ?_, ?_, ?_, ?_⟩
  · obtain ⟨da2, hpush, _, hcap, _, _, _⟩ := push_spec da x mem hwf hfit
    have hc0 := hwf.2.2.1
    refine ⟨_, hpush, ?_, hcap⟩
    rw [hcap]; split <;> omega
  · obtain ⟨st, hpop, _, hcap, _⟩ := pop_total da hwf
    exact ⟨st, hpop, hcap⟩
  · obtain ⟨st, hset, _, hcap, _⟩ := set_total da x i hwf
    exact ⟨st, hset, hcap⟩
  · obtain ⟨st, hget, hda⟩ := get_total da i hwf
    exact ⟨st, hget, by rw [hda]⟩

/-- Witness of C11 on `sample`. -/
theorem C11_capacity_monotone_witness :
    WellFormed sample ∧
    (((sample.size < sample.capacity ∨ sample.capacity ≤ 1073741823) →
      ∃ st, DA_push (some (fun _ => 0)) sample 9 = Result.ok st ∧
        sample.capacity ≤ st.da.capacity ∧
        st.da.capacity =
          (if sample.size = sample.capacity then 2 * sample.capacity else sample.capacity)) ∧
    (∃ st, DA_pop sample = Result.ok st ∧ st.da.capacity = sample.capacity) ∧
    (∃ st, DA_set sample 9 5 = Result.ok st ∧ st.da.capacity = sample.capacity) ∧
    (∃ st, DA_get sample 5 = Result.ok st ∧ st.da.capacity = sample.capacity)) :=
  ⟨by decide, C11_capacity_monotone sample 9 5 (fun _ => 0) (by decide)⟩

/-- C12, refuted as stated: 2^30 pushes leave a new container with capacity
2^30; the sequence of 2^30 + 1 pushes asks for a peak of 2^30 + 1 elements,
for which the least `8 * 2^k` is 2^31, and does not run to the end. -/
theorem C12_peak_past_limit :
    ∃ da0 da1, DA_new true (some (fun _ => 0)) = Result.ok da0 ∧
      run da0 (pushAll (List.replicate 1073741824 (8, fun _ => 0))) = Result.ok da1 ∧
      da1.capacity = 1073741824 ∧
      peak 0 0 (pushAll (List.replicate 1073741824 (8, fun _ => 0) ++ [(8, fun _ => 0)])) =
        1073741825 ∧
      run da0 (pushAll (List.replicate 1073741824 (8, fun _ => 0) ++ [(8, fun _ => 0)])) =
        Result.undefined := by
  obtain ⟨da1, hrun, hwf1, hd1, hsz1, _⟩ :=
    run_pushAll (List.replicate 1073741824 (8, fun _ => 0)) _ (new_wellFormed (fun _ => 0))
      ⟨⟨0, by norm_num⟩, Or.inl rfl⟩ (by rw [List.length_replicate]; simp)
  have hsize : da1.size = 1073741824 := by rw [hsz1, List.length_replicate]; rfl
  refine ⟨_, da1, new_spec _, hrun, doubled_at_limit da1 hwf1 hd1 hsize, ?_,
    run_overflow _ _ _ (List.length_replicate _ _)⟩
  rw [(counts_pushAll _ 0).2 0, List.length_append, List.length_replicate,
    List.length_singleton]
  norm_num

/-- C12, amended: for every sequence of push/pop calls on a container returned
by `DA_new` whose peak size `m` is at most 2^30 (allocations succeeding), the
capacity after the sequence is the least value of the form `8 * 2^k` that is
`>= m`, which is 8 if `m <= 8`; the first capacity change happens on the 9th
element, a push while size is 8, and takes the capacity from 8 to 16; after
800 pushes the capacity is 1024. -/
theorem C12_capacity_formula (mem0 : Nat → Handle) (ops : List Op)
    (hb : ∀ n ∈ counts 0 ops, n ≤ 1073741824) :
    (∃ da0 da, DA_new true (some mem0) = Result.ok da0 ∧ run da0 ops = Result.ok da ∧
      ∃ k : Nat, da.capacity = 8 * 2 ^ k ∧ peak 0 0 ops ≤ da.capacity ∧
        (∀ j : Nat, peak 0 0 ops ≤ 8 * 2 ^ j → da.capacity ≤ 8 * 2 ^ j) ∧
        (peak 0 0 ops ≤ 8 → da.capacity = 8)) ∧
    (∀ (ps : List (Handle × (Nat → Handle))) (p : Handle × (Nat → Handle)), ps.length = 8 →
      ∃ da0 da8 da9, DA_new true (some mem0) = Result.ok da0 ∧
        run da0 (pushAll ps) = Result.ok da8 ∧ da8.size = 8 ∧ da8.capacity = 8 ∧
        run da0 (pushAll (ps ++ [p])) = Result.ok da9 ∧ da9.capacity = 16) ∧
    (∀ ps : List (Handle × (Nat → Handle)), ps.length = 800 →
      ∃ da0 da, DA_new true (some mem0) = Result.ok da0 ∧
        run da0 (pushAll ps) = Result.ok da ∧ da.capacity = 1024) := by
  have h0 : Tight { items := some ((List.range 8).map mem0), size := 0, capacity := 8 } 0 :=
    ⟨⟨0, by norm_num⟩, le_refl _, by show (0 : Int) ≤ 8; decide, Or.inl rfl⟩
  have hd0 : Doubled { items := some ((List.range 8).map mem0), size := 0, capacity := 8 } :=
    ⟨⟨0, by norm_num⟩, Or.inl rfl⟩
  have key : ∀ (ps : List (Handle × (Nat → Handle))) (j : Nat), ps.length ≤ 1073741824 →
      (ps.length : Int) ≤ 8 * 2 ^ j → (j = 0 ∨ (8 : Int) * 2 ^ j < 2 * ps.length) →
      ∃ da, run { items := some ((List.range 8).map mem0), size := 0, capacity := 8 }
          (pushAll ps) = Result.ok da ∧ da.size = ps.length ∧ da.capacity = 8 * 2 ^ j := by
    intro ps j hlen hj hlow
    obtain ⟨da, hrun, hwf, hd, hsz, _⟩ := run_pushAll ps _ (new_wellFormed mem0) hd0
      (by simp only; omega)
    have hsz2 : da.size = ps.length := by rw [hsz]; simp
    have ht : Tight da ps.length :=
      ⟨hd.1, by omega, by have := hwf.2.1; omega, by rw [← hsz2]; exact hd.2⟩
    exact ⟨da, hrun, hsz2, tight_at da _ j ht hj hlow⟩
  refine ⟨?_, fun ps p hlen => ?_, fun ps hlen => ?_⟩
  · obtain ⟨da, hrun, _, ht⟩ := run_tight ops _ 0 (new_wellFormed mem0) h0 hb
    exact ⟨_, da, new_spec mem0, hrun, tight_least da _ ht⟩
  · obtain ⟨da8, hrun8, hsz8, hcap8⟩ := key ps 0 (by omega) (by rw [hlen]; norm_num)
      (Or.inl rfl)
    obtain ⟨da9, hrun9, _, hcap9⟩ := key (ps ++ [p]) 1
      (by rw [List.length_append, hlen]; simp)
      (by rw [List.length_append, hlen]; norm_num)
      (Or.inr (by rw [List.length_append, hlen]; norm_num))
    refine ⟨_, da8, da9, new_spec mem0, hrun8, by rw [hsz8, hlen]; rfl, by rw [hcap8]; norm_num,
      hrun9, by rw [hcap9]; norm_num⟩
  · obtain ⟨da, hrun, _, hcap⟩ := key ps 7 (by omega) (by rw [hlen]; norm_num)
      (Or.inr (by rw [hlen]; norm_num))
    exact ⟨_, da, new_spec mem0, hrun, by rw [hcap]; norm_num⟩

/-- Witness of C12 on the sequence `demo`. -/
theorem C12_capacity_formula_witness :
    (∀ n ∈ counts 0 demo, n ≤ 1073741824) ∧
    ((∃ da0 da, DA_new true (some (fun _ => 0)) = Result.ok da0 ∧
      run da0 demo = Result.ok da ∧
      ∃ k : Nat, da.capacity = 8 * 2 ^ k ∧ peak 0 0 demo ≤ da.capacity ∧
        (∀ j : Nat, peak 0 0 demo ≤ 8 * 2 ^ j → da.capacity ≤ 8 * 2 ^ j) ∧
        (peak 0 0 demo ≤ 8 → da.capacity = 8)) ∧
    (∀ (ps : List (Handle × (Nat → Handle))) (p : Handle × (Nat → Handle)), ps.length = 8 →
      ∃ da0 da8 da9, DA_new true (some (fun _ => 0)) = Result.ok da0 ∧
        run da0 (pushAll ps) = Result.ok da8 ∧ da8.size = 8 ∧ da8.capacity = 8 ∧
        run da0 (pushAll (ps ++ [p])) = Result.ok da9 ∧ da9.capacity = 16) ∧
    (∀ ps : List (Handle × (Nat → Handle)), ps.length = 800 →
      ∃ da0 da, DA_new true (some (fun _ => 0)) = Result.ok da0 ∧
        run da0 (pushAll ps) = Result.ok da ∧ da.capacity = 1024)) :=
  ⟨by decide, C12_capacity_formula (fun _ => 0) demo (by decide)⟩

/-- C13, evaluated on the code: on the full container `full8`, when `realloc`
returns null, the growth step of `DA_push` stores the null pointer in `items`
and the push then writes through it: the call is undefined, it writes no
diagnostic and does not exit, whereas `DA_new` exits with a diagnostic when
its allocation of the block fails. -/
theorem C13_push_realloc_null :
    WellFormed full8 ∧ full8.size = full8.capacity ∧
      (DA_grow none full8).items = none ∧
      DA_push none full8 9 = Result.undefined ∧
      DA_new true none = Result.exited "Failed to allocate memory for items\n" :=
  ⟨by decide, rfl, rfl, push_undefined_of_null full8 9 rfl, rfl⟩

/-- C14, refuted as stated: on the well-formed container `brimful` no
`DA_push(NULL)` returns, so that no `DA_pop` follows it. -/
theorem C14_push_null_brimful :
    WellFormed brimful ∧
      ¬ ∃ answer st st2, DA_push answer brimful NULL = Result.ok st ∧
        DA_pop st.da = Result.ok st2 ∧ st2.ret = NULL := by
  refine ⟨brimful_wellFormed, ?_⟩
  rintro ⟨answer, st, _, hpush, _⟩
  have hcap : brimful.capacity = 1073741824 := rfl
  rw [push_overflow answer brimful NULL rfl (le_of_eq hcap.symm) (by rw [hcap]; decide)]
    at hpush
  exact absurd hpush (by simp)

/-- C14, amended: on a well-formed container that is not full or whose
capacity is below 2^30, `DA_push(NULL)` (the reallocation succeeding) followed
by `DA_pop` returns `NULL` from a container that is not empty; `DA_pop` on
every container of size 0 returns `NULL` as well; so there are a non-empty
and an empty well-formed container on which `DA_pop` returns equal results. -/
theorem C14_null_ambiguity (da : DA) (mem : Nat → Handle) (hwf : WellFormed da)
    (hfit : da.size < da.capacity ∨ da.capacity ≤ 1073741823) :
    (∃ st st2, DA_push (some mem) da NULL = Result.ok st ∧ 0 < st.da.size ∧
      DA_pop st.da = Result.ok st2 ∧ st2.ret = NULL) ∧
    (∀ e : DA, e.size = 0 → ∃ st3, DA_pop e = Result.ok st3 ∧ st3.ret = NULL) ∧
    (∃ a b sa sb, WellFormed a ∧ WellFormed b ∧ 0 < a.size ∧ b.size = 0 ∧
      DA_pop a = Result.ok sa ∧ DA_pop b = Result.ok sb ∧ sa.ret = sb.ret) := by
  obtain ⟨hs0, hsc, hc0, hcm, hblk⟩ := id hwf
  obtain ⟨da2, hpush, hsz, _, hwf2, _, hnew⟩ := push_spec da NULL mem hwf hfit
  obtain ⟨v, hv, hpop⟩ := pop_spec da2 hwf2 (by omega)
  have hvn : v = NULL := by
    have e : (da2.size - 1).toNat = da.size.toNat := by omega
    rw [e, hnew] at hv; exact (Option.some.inj hv).symm
  have hempty : ∀ e : DA, e.size = 0 → DA_pop e = Result.ok
      { ret := NULL, da := e, diag := some "Cannot pop from empty array\n" } := by
    intro e he; simp only [DA_pop, if_pos he]
  refine ⟨⟨_, _, hpush, by simp only; omega, hpop, hvn⟩, fun e he => ⟨_, hempty e he, rfl⟩,
    da2, { items := da.items, size := 0, capacity := da.capacity }, _, _, hwf2,
    ⟨le_refl _, le_of_lt hc0, hc0, hcm, hblk⟩, by omega, rfl, hpop, hempty _ rfl, hvn⟩

/-- Witness of C14 on `sample`. -/
theorem C14_null_ambiguity_witness :
    WellFormed sample ∧ (sample.size < sample.capacity ∨ sample.capacity ≤ 1073741823) ∧
    ((∃ st st2, DA_push (some (fun _ => 0)) sample NULL = Result.ok st ∧ 0 < st.da.size ∧
      DA_pop st.da = Result.ok st2 ∧ st2.ret = NULL) ∧
    (∀ e : DA, e.size = 0 → ∃ st3, DA_pop e = Result.ok st3 ∧ st3.ret = NULL) ∧
    (∃ a b sa sb, WellFormed a ∧ WellFormed b ∧ 0 < a.size ∧ b.size = 0 ∧
      DA_pop a = Result.ok sa ∧ DA_pop b = Result.ok sb ∧ sa.ret = sb.ret)) :=
  ⟨by decide, by decide, C14_null_ambiguity sample (fun _ => 0) (by decide) (by decide)⟩

/-- C15: for every `n >= 1`, over `n` consecutive `DA_push` calls on a
container returned by `DA_new`, the slots carried over by the capacity
doublings (the sum of the old capacities at each growth) number less than
`2n`, and the growth steps number at most `log2(n/8)` rounded up: at most `k`
for every `k` with `n <= 8 * 2^k`, and none when `n <= 8`. -/
theorem C15_amortized_growth (mem0 : Nat → Handle) (ps : List (Handle × (Nat → Handle)))
    (k : Nat) (hn : 1 ≤ ps.length) (hk : ps.length ≤ 8 * 2 ^ k) :
    ∃ da0, DA_new true (some mem0) = Result.ok da0 ∧
      carried da0 (pushAll ps) < 2 * ps.length ∧
      growths da0 (pushAll ps) ≤ doublingsNeeded ps.length ∧
      growths da0 (pushAll ps) ≤ k ∧
      (ps.length ≤ 8 → growths da0 (pushAll ps) = 0) := by
  obtain ⟨h1, h2⟩ := cost_new mem0 ps
  refine ⟨_, new_spec mem0, by omega, h2 _ ?_, h2 k hk, fun h8 => ?_⟩
  · have := Nat.le_pow_clog (by decide : 1 < 2) ((ps.length + 7) / 8)
    unfold doublingsNeeded
    omega
  · have := h2 0 (by simpa using h8)
    omega

/-- Witness of C15 on `nine`: nine pushes, one growth carrying 8 slots. -/
theorem C15_amortized_growth_witness :
    1 ≤ nine.length ∧ nine.length ≤ 8 * 2 ^ 1 ∧
      ∃ da0, DA_new true (some (fun _ => 0)) = Result.ok da0 ∧
        carried da0 (pushAll nine) < 2 * nine.length ∧
        growths da0 (pushAll nine) ≤ doublingsNeeded nine.length ∧
        growths da0 (pushAll nine) ≤ 1 ∧
        (nine.length ≤ 8 → growths da0 (pushAll nine) = 0) :=
  ⟨by decide, by decide, C15_amortized_growth (fun _ => 0) nine 1 (by decide) (by decide)⟩

/-- C17, refuted as stated: on the well-formed container `brimful` no
`DA_push` returns, so that no state has the list of `brimful` with `h`
appended. -/
theorem C17_push_brimful_no_list :
    WellFormed brimful ∧ ∀ answer h,
      ¬ ∃ st, DA_push answer brimful h = Result.ok st ∧
        abs st.da = spec_push (abs brimful) h := by
  refine ⟨brimful_wellFormed, fun answer h => ?_⟩
  rintro ⟨st, hpush, _⟩
  have hcap : brimful.capacity = 1073741824 := rfl
  rw [push_overflow answer brimful h rfl (le_of_eq hcap.symm) (by rw [hcap]; decide)]
    at hpush
  exact absurd hpush (by simp)

/-- C17, amended: with `abs s` the list of slots `0 .. size-1`, `abs` of a new
container is the empty list, and on every well-formed `s`: `DA_push(h)` on `s`
not full or of capacity below 2^30 (the reallocation succeeding) yields
`abs s ++ [h]`; `DA_pop` on non-empty `s` returns the last element of `abs s`
and yields `abs s` without it; `DA_set(h, i)` for valid `i` yields `abs s` with
position `i` replaced by `h`; `DA_get(i)` for valid `i` returns the `i`-th
element of `abs s`; and `DA_size` is the length of `abs s`. -/
theorem C17_refines_list (s : DA) (h : Handle) (i : Int) (mem0 mem : Nat → Handle)
    (hwf : WellFormed s) :
    (∃ da0, DA_new true (some mem0) = Result.ok da0 ∧ abs da0 = spec_new) ∧
    ((s.size < s.capacity ∨ s.capacity ≤ 1073741823) →
      ∃ st, DA_push (some mem) s h = Result.ok st ∧ abs st.da = spec_push (abs s) h) ∧
    (0 < s.size →
      ∃ st, DA_pop s = Result.ok st ∧ spec_pop (abs s) = some (st.ret, abs st.da)) ∧
    (0 ≤ i → i < s.size →
      ∃ st, DA_set s h i = Result.ok st ∧ abs st.da = spec_set (abs s) h i.toNat) ∧
    (0 ≤ i → i < s.size →
      ∃ st, DA_get s i = Result.ok st ∧ spec_get (abs s) i.toNat = some st.ret ∧ st.da = s) ∧
    DA_size s = spec_size (abs s) := by
  refine ⟨⟨_, new_spec mem0, by simp [abs, spec_new]⟩, fun hfit => ?_, fun hpos => ?_,
    fun hi0 hi1 => ?_, fun hi0 hi1 => ?_, ?_⟩
  · obtain ⟨da2, hpush, hsz, _, _, hkeep, hnew⟩ := push_spec s h mem hwf hfit
    exact ⟨_, hpush, abs_push s da2 h hwf hsz hkeep hnew⟩
  · obtain ⟨v, hv, hpop⟩ := pop_spec s hwf hpos
    exact ⟨_, hpop, abs_pop s v hwf hpos hv⟩
  · obtain ⟨buf, hbuf, _, hset, _⟩ := set_spec s h i hwf hi0 hi1
    exact ⟨_, hset, abs_set s buf h i.toNat hbuf⟩
  · obtain ⟨v, hv, hget⟩ := get_spec s i hwf hi0 hi1
    refine ⟨_, hget, ?_, rfl⟩
    rw [spec_get, abs_getElem?, if_pos (by omega), hv]
  · rw [spec_size, abs_length s hwf, DA_size]
    have := hwf.1
    omega

/-- Witness of C17 on `sample`. -/
theorem C17_refines_list_witness :
    WellFormed sample ∧
    ((∃ da0, DA_new true (some (fun _ => 0)) = Result.ok da0 ∧ abs da0 = spec_new) ∧
    ((sample.size < sample.capacity ∨ sample.capacity ≤ 1073741823) →
      ∃ st, DA_push (some (fun _ => 0)) sample 9 = Result.ok st ∧
        abs st.da = spec_push (abs sample) 9) ∧
    (0 < sample.size →
      ∃ st, DA_pop sample = Result.ok st ∧ spec_pop (abs sample) = some (st.ret, abs st.da)) ∧
    ((0 : Int) ≤ 1 → 1 < sample.size →
      ∃ st, DA_set sample 9 1 = Result.ok st ∧
        abs st.da = spec_set (abs sample) 9 (1 : Int).toNat) ∧
    ((0 : Int) ≤ 1 → 1 < sample.size →
      ∃ st, DA_get sample 1 = Result.ok st ∧
        spec_get (abs sample) (1 : Int).toNat = some st.ret ∧ st.da = sample) ∧
    DA_size sample = spec_size (abs sample)) :=
  ⟨by decide, C17_refines_list sample 9 1 (fun _ => 0) (fun _ => 0) (by decide)⟩

/-- C19: on a well-formed container with `size > 0`, `DA_pop` returns a handle
`h` and a state on which `DA_push(h)`, whatever the allocator would answer,
returns the container it was before the pop: same size, same capacity, same
block. -/
theorem C19_pop_push_identity (da : DA) (answer : Option (Nat → Handle))
    (hwf : WellFormed da) (hpos : 0 < da.size) :
    ∃ st st2, DA_pop da = Result.ok st ∧ st.da.size = da.size - 1 ∧
      DA_push answer st.da st.ret = Result.ok st2 ∧ st2.da = da ∧
      (DA_grow answer st.da).capacity = st.da.capacity := by
  obtain ⟨v, hv, hpop⟩ := pop_spec da hwf hpos
  have hsc := hwf.2.1
  refine ⟨_, _, hpop, rfl, push_after_pop answer da v hwf hpos hv, rfl, ?_⟩
  rw [grow_of_not_full]
  simp only; omega

/-- Witness of C19 on `full8`, a full container. -/
theorem C19_pop_push_identity_witness :
    WellFormed full8 ∧ 0 < full8.size ∧
      ∃ st st2, DA_pop full8 = Result.ok st ∧ st.da.size = full8.size - 1 ∧
        DA_push none st.da st.ret = Result.ok st2 ∧ st2.da = full8 ∧
        (DA_grow none st.da).capacity = st.da.capacity :=
  ⟨by decide, by decide, C19_pop_push_identity full8 none (by decide) (by decide)⟩

/-- C20, refuted as stated: `brimful` has size and capacity 2^30, and
`DA_push` on it returns no state, whatever the allocator answers and whatever
is pushed: there is no state after that push. -/
theorem C20_no_state_after_push :
    brimful.size = 1073741824 ∧ brimful.capacity = 1073741824 ∧
      ∀ answer x, ¬ ∃ st, DA_push answer brimful x = Result.ok st := by
  refine ⟨rfl, rfl, fun answer x => ?_⟩
  rintro ⟨st, hst⟩
  have hcap : brimful.capacity = 1073741824 := rfl
  rw [push_overflow answer brimful x rfl (le_of_eq hcap.symm) (by rw [hcap]; decide)] at hst
  exact absurd hst (by simp)

/-- C20, amended: with `int` as a wrapping 32-bit integer, on a full
well-formed container `lo` whose capacity is below 2^30 the doubling in
`DA_push` is exact and the push (the reallocation succeeding) returns with
`0 <= size <= capacity`; on a container `hi` with size and capacity 2^30 the
doubled capacity wraps to -2^31, so that `size <= capacity` no longer holds in
the state the growth step leaves, and the push does not return. -/
theorem C20_doubling_wraps (lo hi : DA) (x : Handle) (mem : Nat → Handle)
    (answer : Option (Nat → Handle)) (hwf : WellFormed lo) (hfull : lo.size = lo.capacity)
    (hlo : lo.capacity < 1073741824) (hsz : hi.size = 1073741824)
    (hcap : hi.capacity = 1073741824) :
    (wrap32 (lo.capacity * 2) = lo.capacity * 2 ∧
      (DA_grow (some mem) lo).capacity = lo.capacity * 2 ∧
      ∃ st, DA_push (some mem) lo x = Result.ok st ∧ st.da.capacity = lo.capacity * 2 ∧
        0 ≤ st.da.size ∧ st.da.size ≤ st.da.capacity) ∧
    (wrap32 (hi.capacity * 2) = -2147483648 ∧
      (DA_grow answer hi).capacity = -2147483648 ∧
      (DA_grow answer hi).size = 1073741824 ∧
      ¬ (DA_grow answer hi).size ≤ (DA_grow answer hi).capacity ∧
      DA_push answer hi x = Result.undefined) := by
  have hc0 := hwf.2.2.1
  have hw : wrap32 (lo.capacity * 2) = lo.capacity * 2 := wrap32_of_int (by omega) (by omega)
  have hw2 : wrap32 (hi.capacity * 2) = -2147483648 := by rw [hcap]; decide
  have hg := grow_capacity_of_full (some mem) lo hfull
  have hg2 := grow_capacity_of_full answer hi (by rw [hsz, hcap])
  have hu : DA_push answer hi x = Result.undefined :=
    push_overflow answer hi x (by rw [hsz, hcap]) (by omega) (by unfold INT_MAX; omega)
  obtain ⟨da2, hpush, _, hcap2, hwf2, _, _⟩ := push_spec lo x mem hwf (by omega)
  refine ⟨⟨hw, by rw [hg.1, hw], _, hpush, ?_, hwf2.1, hwf2.2.1⟩,
    hw2, by rw [hg2.1, hw2], by rw [hg2.2, hsz], ?_, hu⟩
  · simp only [hcap2, if_pos hfull]; omega
  · rw [hg2.1, hg2.2, hw2, hsz]; decide

/-- Witness of C20 on `full8` and `brimful`. -/
theorem C20_doubling_wraps_witness :
    WellFormed full8 ∧ full8.size = full8.capacity ∧ full8.capacity < 1073741824 ∧
    brimful.size = 1073741824 ∧ brimful.capacity = 1073741824 ∧
    ((wrap32 (full8.capacity * 2) = full8.capacity * 2 ∧
      (DA_grow (some (fun _ => 0)) full8).capacity = full8.capacity * 2 ∧
      ∃ st, DA_push (some (fun _ => 0)) full8 9 = Result.ok st ∧
        st.da.capacity = full8.capacity * 2 ∧ 0 ≤ st.da.size ∧ st.da.size ≤ st.da.capacity) ∧
    (wrap32 (brimful.capacity * 2) = -2147483648 ∧
      (DA_grow none brimful).capacity = -2147483648 ∧
      (DA_grow none brimful).size = 1073741824 ∧
      ¬ (DA_grow none brimful).size ≤ (DA_grow none brimful).capacity ∧
      DA_push none brimful 9 = Result.undefined)) :=
  ⟨by decide, rfl, by decide, rfl, rfl,
    C20_doubling_wraps full8 brimful 9 (fun _ => 0) none (by decide) rfl (by decide) rfl rfl⟩

end DynArray
